import Mathlib

/-!
Verification of the context-budget manager of the gemini-cli agent runtime.

The development shallowly embeds the observation-masking engine
(`packages/core/src/services/observationMaskingService.ts`), and models the
tool-exposure layer and the history-compression failure path, which are
specified (spec sections 4.2 and 4.3) and tested in the repository but whose
implementation files are not part of the source tree at hand.

Conventions of the embedding:
- JavaScript strings are modelled by Lean `String` (code points instead of
  UTF-16 units; identical on the inputs considered here).
- `estimateTokenCountSync [p]` is an opaque deterministic estimator, modelled
  as a parameter `est : Part → Nat`.
- `Math.random().toString(36).substring(7)` and `Date.now().toString()` are
  modelled by injected deterministic parameters (`gensym`, `nowId`).
- File-system writes are modelled by an explicit writer in the `Except`
  monad (`maskE`); `maskFull`/`mask` are the pure projection under the
  always-succeeding writer, and the agreement is proved (`maskE_ok_writer`).
-/

namespace GeminiCli

/-! ## Generic string machinery -/

/-- Substring test on character lists: does `pat` occur contiguously in the
list?  Models JavaScript `String.prototype.includes`. -/
def hasSub (pat : List Char) : List Char → Bool
  | [] => pat.isEmpty
  | c :: cs => pat.isPrefixOf (c :: cs) || hasSub pat cs

/-- String-level wrapper of `hasSub`. -/
def strIncludes (s pat : String) : Bool := hasSub pat.data s.data

/-- Split a character list at every occurrence of `c` (JavaScript
`String.prototype.split` with a single-character separator). -/
def splitChar (c : Char) : List Char → List (List Char)
  | [] => [[]]
  | x :: xs =>
      match splitChar c xs with
      | [] => [[]]
      | r :: rs => if x = c then [] :: r :: rs else (x :: r) :: rs

/-- `s.split("\n")`. -/
def strSplitNewline (s : String) : List String :=
  (splitChar '\n' s.data).map (fun l => ⟨l⟩)

/-- `s.slice(0, n)`. -/
def strTake (n : Nat) (s : String) : String := ⟨s.data.take n⟩

/-- `s.slice(-n)`: the last `n` characters (the whole string if shorter). -/
def strTakeRight (n : Nat) (s : String) : String :=
  ⟨s.data.drop (s.data.length - n)⟩

/-! ## JSON values

The opaque structured payload of a function response (`response` in the
`@google/genai` `Part` type) is an arbitrary JSON-like value. -/

/-- JSON value, the shape of a tool-response payload. -/
inductive Json where
  | jnull : Json
  | jbool : Bool → Json
  | jnum : Int → Json
  | jstr : String → Json
  | jarr : List Json → Json
  | jobj : List (String × Json) → Json

mutual
/-- Structural decidable equality for `Json`. -/
def Json.beq : Json → Json → Bool
  | .jnull, .jnull => true
  | .jbool a, .jbool b => a == b
  | .jnum a, .jnum b => a == b
  | .jstr a, .jstr b => a == b
  | .jarr a, .jarr b => Json.beqArr a b
  | .jobj a, .jobj b => Json.beqObj a b
  | _, _ => false
termination_by structural j => j

/-- Elementwise `Json.beq` on arrays. -/
def Json.beqArr : List Json → List Json → Bool
  | [], [] => true
  | x :: xs, y :: ys => x.beq y && Json.beqArr xs ys
  | _, _ => false
termination_by structural l => l

/-- Fieldwise `Json.beq` on objects. -/
def Json.beqObj : List (String × Json) → List (String × Json) → Bool
  | [], [] => true
  | (k, x) :: xs, (l, y) :: ys => k == l && x.beq y && Json.beqObj xs ys
  | _, _ => false
termination_by structural l => l
end

mutual
theorem Json.beq_refl : (j : Json) → j.beq j = true
  | .jnull => rfl
  | .jbool b => by simp [Json.beq]
  | .jnum n => by simp [Json.beq]
  | .jstr s => by simp [Json.beq]
  | .jarr xs => by simpa [Json.beq] using Json.beqArr_refl xs
  | .jobj fs => by simpa [Json.beq] using Json.beqObj_refl fs

theorem Json.beqArr_refl : (xs : List Json) → Json.beqArr xs xs = true
  | [] => rfl
  | x :: xs => by simp [Json.beqArr, Json.beq_refl x, Json.beqArr_refl xs]

theorem Json.beqObj_refl : (fs : List (String × Json)) → Json.beqObj fs fs = true
  | [] => rfl
  | (k, v) :: fs => by
      simp [Json.beqObj, Json.beq_refl v, Json.beqObj_refl fs]
end

mutual
theorem Json.eq_of_beq : {a b : Json} → a.beq b = true → a = b
  | .jnull, .jnull, _ => rfl
  | .jbool a, .jbool b, h => by simp [Json.beq] at h; simp [h]
  | .jnum a, .jnum b, h => by simp [Json.beq] at h; simp [h]
  | .jstr a, .jstr b, h => by simp [Json.beq] at h; simp [h]
  | .jarr a, .jarr b, h => by
      simp only [Json.beq] at h
      exact congrArg Json.jarr (Json.eqArr_of_beq h)
  | .jobj a, .jobj b, h => by
      simp only [Json.beq] at h
      exact congrArg Json.jobj (Json.eqObj_of_beq h)
  | .jnull, .jbool _, h => by simp [Json.beq] at h
  | .jnull, .jnum _, h => by simp [Json.beq] at h
  | .jnull, .jstr _, h => by simp [Json.beq] at h
  | .jnull, .jarr _, h => by simp [Json.beq] at h
  | .jnull, .jobj _, h => by simp [Json.beq] at h
  | .jbool _, .jnull, h => by simp [Json.beq] at h
  | .jbool _, .jnum _, h => by simp [Json.beq] at h
  | .jbool _, .jstr _, h => by simp [Json.beq] at h
  | .jbool _, .jarr _, h => by simp [Json.beq] at h
  | .jbool _, .jobj _, h => by simp [Json.beq] at h
  | .jnum _, .jnull, h => by simp [Json.beq] at h
  | .jnum _, .jbool _, h => by simp [Json.beq] at h
  | .jnum _, .jstr _, h => by simp [Json.beq] at h
  | .jnum _, .jarr _, h => by simp [Json.beq] at h
  | .jnum _, .jobj _, h => by simp [Json.beq] at h
  | .jstr _, .jnull, h => by simp [Json.beq] at h
  | .jstr _, .jbool _, h => by simp [Json.beq] at h
  | .jstr _, .jnum _, h => by simp [Json.beq] at h
  | .jstr _, .jarr _, h => by simp [Json.beq] at h
  | .jstr _, .jobj _, h => by simp [Json.beq] at h
  | .jarr _, .jnull, h => by simp [Json.beq] at h
  | .jarr _, .jbool _, h => by simp [Json.beq] at h
  | .jarr _, .jnum _, h => by simp [Json.beq] at h
  | .jarr _, .jstr _, h => by simp [Json.beq] at h
  | .jarr _, .jobj _, h => by simp [Json.beq] at h
  | .jobj _, .jnull, h => by simp [Json.beq] at h
  | .jobj _, .jbool _, h => by simp [Json.beq] at h
  | .jobj _, .jnum _, h => by simp [Json.beq] at h
  | .jobj _, .jstr _, h => by simp [Json.beq] at h
  | .jobj _, .jarr _, h => by simp [Json.beq] at h

theorem Json.eqArr_of_beq : {a b : List Json} → Json.beqArr a b = true → a = b
  | [], [], _ => rfl
  | x :: xs, y :: ys, h => by
      simp only [Json.beqArr, Bool.and_eq_true] at h
      rw [Json.eq_of_beq h.1, Json.eqArr_of_beq h.2]
  | [], _ :: _, h => by simp [Json.beqArr] at h
  | _ :: _, [], h => by simp [Json.beqArr] at h

theorem Json.eqObj_of_beq :
    {a b : List (String × Json)} → Json.beqObj a b = true → a = b
  | [], [], _ => rfl
  | (k, x) :: xs, (l, y) :: ys, h => by
      simp only [Json.beqObj, Bool.and_eq_true] at h
      rw [beq_iff_eq] at h
      rw [h.1.1, Json.eq_of_beq h.1.2, Json.eqObj_of_beq h.2]
  | [], _ :: _, h => by simp [Json.beqObj] at h
  | _ :: _, [], h => by simp [Json.beqObj] at h
end

instance : DecidableEq Json := fun a b =>
  if h : a.beq b = true then .isTrue (Json.eq_of_beq h)
  else .isFalse (fun he => h (he ▸ Json.beq_refl a))

/-- JavaScript truthiness of a JSON value (`null`, `false`, `0` and the empty
string are falsy; arrays and objects are always truthy). -/
def jsTruthy : Json → Bool
  | .jnull => false
  | .jbool b => b
  | .jnum n => n != 0
  | .jstr s => s != ""
  | .jarr _ => true
  | .jobj _ => true

/-- Property access `v[key]` on a JSON value; `none` models `undefined`. -/
def jget (v : Json) (key : String) : Option Json :=
  match v with
  | .jobj fields => (fields.find? (fun kv => kv.1 == key)).map (·.2)
  | _ => none

/-- `a || b` on an optionally-defined JSON value (JavaScript logical or). -/
def jsOr (a : Option Json) (b : Json) : Json :=
  match a with
  | some v => if jsTruthy v then v else b
  | none => b

/-- `a ?? b` (JavaScript nullish coalescing) on optionally-defined values. -/
def jsNullish (a b : Option Json) : Option Json :=
  match a with
  | some .jnull => b
  | none => b
  | some v => some v

mutual
/-- JavaScript `String(v)` coercion, as used by template-literal
interpolation.  Objects display as `[object Object]`. -/
def jsDisplay : Json → String
  | .jnull => "null"
  | .jbool b => cond b "true" "false"
  | .jnum n => toString n
  | .jstr s => s
  | .jarr xs => String.intercalate "," (jsDisplayList xs)
  | .jobj _ => "[object Object]"
termination_by structural j => j

/-- `String(v)` of each array element. -/
def jsDisplayList : List Json → List String
  | [] => []
  | x :: xs => jsDisplay x :: jsDisplayList xs
termination_by structural l => l
end

/-! ## JSON serialization (`JSON.stringify`)

`escChar` performs the escaping of one character inside a JSON string
literal; `stringifyI` is `JSON.stringify(v, null, 2)` (two-space pretty
printing) and `stringifyC` is single-argument compact `JSON.stringify(v)`. -/

/-- Hexadecimal digit. -/
def hexDigit (n : Nat) : Char :=
  if n < 10 then Char.ofNat (48 + n) else Char.ofNat (87 + n)

/-- JSON escape of a single character. -/
def escChar (c : Char) : List Char :=
  if c = '"' then ['\\', '"']
  else if c = '\\' then ['\\', '\\']
  else if c = '\n' then ['\\', 'n']
  else if c = '\r' then ['\\', 'r']
  else if c = '\t' then ['\\', 't']
  else if c.val < 32 then
    ['\\', 'u', '0', '0', hexDigit (c.toNat / 16), hexDigit (c.toNat % 16)]
  else [c]

/-- JSON escape of a whole string body. -/
def escStr (s : String) : List Char := s.data.flatMap escChar

/-- A JSON string literal: quotes around the escaped body. -/
def quoteStr (s : String) : String := ⟨'"' :: escStr s ++ ['"']⟩

/-- `n` spaces. -/
def indentStr (n : Nat) : String := ⟨List.replicate n ' '⟩

mutual
/-- `JSON.stringify(v, null, 2)` at current indentation `ind`. -/
def stringifyI (ind : Nat) : Json → String
  | .jnull => "null"
  | .jbool b => cond b "true" "false"
  | .jnum n => toString n
  | .jstr s => quoteStr s
  | .jarr [] => "[]"
  | .jarr (x :: xs) =>
      "[\n" ++ stringifyIArr ind (x :: xs) ++ "\n" ++ indentStr ind ++ "]"
  | .jobj [] => "\x7b\x7d"
  | .jobj (f :: fs) =>
      "\x7b\n" ++ stringifyIObj ind (f :: fs) ++ "\n" ++ indentStr ind ++ "\x7d"
termination_by structural j => j

/-- Comma-and-newline separated array elements, each indented. -/
def stringifyIArr (ind : Nat) : List Json → String
  | [] => ""
  | [x] => indentStr (ind + 2) ++ stringifyI (ind + 2) x
  | x :: y :: ys =>
      indentStr (ind + 2) ++ stringifyI (ind + 2) x ++ ",\n" ++
        stringifyIArr ind (y :: ys)
termination_by structural l => l

/-- Comma-and-newline separated object fields, each indented. -/
def stringifyIObj (ind : Nat) : List (String × Json) → String
  | [] => ""
  | [(k, v)] => indentStr (ind + 2) ++ quoteStr k ++ ": " ++ stringifyI (ind + 2) v
  | (k, v) :: g :: gs =>
      indentStr (ind + 2) ++ quoteStr k ++ ": " ++ stringifyI (ind + 2) v ++
        ",\n" ++ stringifyIObj ind (g :: gs)
termination_by structural l => l
end

mutual
/-- Compact single-argument `JSON.stringify(v)`. -/
def stringifyC : Json → String
  | .jnull => "null"
  | .jbool b => cond b "true" "false"
  | .jnum n => toString n
  | .jstr s => quoteStr s
  | .jarr [] => "[]"
  | .jarr (x :: xs) => "[" ++ stringifyCArr (x :: xs) ++ "]"
  | .jobj [] => "\x7b\x7d"
  | .jobj (f :: fs) => "\x7b" ++ stringifyCObj (f :: fs) ++ "\x7d"
termination_by structural j => j

/-- Comma separated compact array elements. -/
def stringifyCArr : List Json → String
  | [] => ""
  | [x] => stringifyC x
  | x :: y :: ys => stringifyC x ++ "," ++ stringifyCArr (y :: ys)
termination_by structural l => l

/-- Comma separated compact object fields. -/
def stringifyCObj : List (String × Json) → String
  | [] => ""
  | [(k, v)] => quoteStr k ++ ":" ++ stringifyC v
  | (k, v) :: g :: gs => quoteStr k ++ ":" ++ stringifyC v ++ "," ++ stringifyCObj (g :: gs)
termination_by structural l => l
end

/-! ## Conversation history data model -/

/-- The payload of a `functionResponse` part.  `name` and `id` are optional
strings in the `@google/genai` type; `response` is an optional opaque JSON
payload (`none` models both `null` and `undefined`). -/
structure FunctionResponse where
  name : Option String
  id : Option String
  response : Option Json
deriving DecidableEq

/-- One part of a turn: a text fragment, an inline-data blob, or a tool
(function) response. -/
inductive Part where
  | text : String → Part
  | inlineData : String → Part
  | functionResponse : FunctionResponse → Part
deriving DecidableEq

/-- A turn of the conversation history (`Content` in `@google/genai`). -/
structure Content where
  role : String
  parts : List Part
deriving DecidableEq

/-- The part stored at turn `i`, part index `j` of a history. -/
def partAt (h : List Content) (i j : Nat) : Option Part :=
  match h[i]? with
  | some c => c.parts[j]?
  | none => none

/-! ## Observation-masking engine
(`packages/core/src/services/observationMaskingService.ts`) -/

def TOOL_PROTECTION_THRESHOLD : Nat := 50000

def HYSTERESIS_THRESHOLD : Nat := 30000

def PROTECT_LATEST_TURN : Bool := true

def OBSERVATION_DIR : String := "observations"

/-- `SHELL_TOOL_NAME` from `tools/tool-names.ts` (file not in the source
tree; the exact value is irrelevant to every claim, only its identity as the
shell tool is). -/
def SHELL_TOOL_NAME : String := "run_shell_command"

/-- `GREP_TOOL_NAME` from `tools/tool-names.ts`. -/
def GREP_TOOL_NAME : String := "search_file_content"

/-- `READ_FILE_TOOL_NAME` from `tools/tool-names.ts`. -/
def READ_FILE_TOOL_NAME : String := "read_file"

/-- The stable, greppable marker of a masked-guidance block. -/
def MASK_MARKER : String := "<observation_masked_guidance"

/-- Result record of `ObservationMaskingService.mask`.  `tokensSaved` is a
JavaScript number that can in principle go negative (original minus
replacement estimate), hence `Int`. -/
structure MaskingResult where
  newHistory : List Content
  maskedCount : Nat
  tokensSaved : Int
deriving DecidableEq

/-- Telemetry payload (`ObservationMaskingEvent` in `telemetry/types.ts`). -/
structure ObservationMaskingEvent where
  tokens_before : Nat
  tokens_after : Int
  masked_count : Nat
  total_prunable_tokens : Nat
deriving DecidableEq

/-- `mask`'s observable outcome: its returned result plus the telemetry
event it logged, if any. -/
structure MaskOutcome where
  result : MaskingResult
  telemetry : Option ObservationMaskingEvent
deriving DecidableEq

/-- One element of the `prunableParts` working array ("Masked Record" in the
spec's data model). -/
structure PrunableItem where
  contentIndex : Nat
  partIndex : Nat
  tokens : Nat
  content : String
  originalPart : Part
deriving DecidableEq

/-- `getObservationContent`: `null` unless the part is a function response
with a truthy `response` payload; otherwise `JSON.stringify(response, null,
2)`. -/
def getObservationContent (p : Part) : Option String :=
  match p with
  | .functionResponse fr =>
      match fr.response with
      | none => none
      | some r => if jsTruthy r then some (stringifyI 0 r) else none
  | _ => none

/-- `isAlreadyMasked`: the serialized content carries the guidance marker. -/
def isAlreadyMasked (content : String) : Bool :=
  strIncludes content MASK_MARKER

/-- Mutable state of the backward scan (step 1 of `mask`):
`cumulativeToolTokens`, `protectionBoundaryReached`, `totalPrunableTokens`
and the `prunableParts` array in push order. -/
structure ScanState where
  cumulative : Nat
  boundary : Bool
  total : Nat
  items : List PrunableItem
deriving DecidableEq

def scanInit : ScanState := ⟨0, false, 0, []⟩

/-- A single loop body of the backward scan, at turn index `i`, part index
`j`.  Mirrors lines 69–106 of `observationMaskingService.ts`: skip
non-function-response parts, parts with no (or falsy, or already-masked)
observation content; otherwise accumulate into the protected window until it
exceeds `TOOL_PROTECTION_THRESHOLD`, from which point on every qualifying
part is prunable. -/
def scanVisit (est : Part → Nat) (st : ScanState) : Nat × Nat × Part → ScanState
  | (i, j, part) =>
    match part with
    | .functionResponse _ =>
        match getObservationContent part with
        | none => st
        | some content =>
            if content = "" || isAlreadyMasked content then st
            else
              let partTokens := est part
              if !st.boundary then
                let cum := st.cumulative + partTokens
                if cum > TOOL_PROTECTION_THRESHOLD then
                  { cumulative := cum, boundary := true,
                    total := st.total + partTokens,
                    items := st.items ++ [⟨i, j, partTokens, content, part⟩] }
                else
                  { st with cumulative := cum }
              else
                { st with total := st.total + partTokens,
                          items := st.items ++ [⟨i, j, partTokens, content, part⟩] }
    | _ => st

/-- Inner loop of step 1: parts of turn `i`, scanned newest to oldest. -/
def scanTurn (est : Part → Nat) (i : Nat) (parts : List Part)
    (st : ScanState) : ScanState :=
  (parts.enum.reverse).foldl (fun st jp => scanVisit est st (i, jp.1, jp.2)) st

/-- The prefix of the history that step 1 scans: everything when latest-turn
protection is off, all but the newest turn when it is on (the scan starts at
`history.length - 2`). -/
def scannedPrefix (history : List Content) : List Content :=
  history.take (if PROTECT_LATEST_TURN then history.length - 1 else history.length)

/-- Step 1 of `mask`: backward scan of the history, turns newest to oldest. -/
def scanHistory (est : Part → Nat) (history : List Content) : ScanState :=
  ((scannedPrefix history).enum.reverse).foldl
    (fun st ic => scanTurn est ic.1 ic.2.parts st) scanInit

/-- JavaScript `a || d` for an optional string `a` (the empty string is
falsy). -/
def jsOrStr (a : Option String) (d : String) : String :=
  match a with
  | some s => if s = "" then d else s
  | none => d

/-- Digit grouping of `Number.prototype.toLocaleString()` under the en-US
default locale (comma every three digits). -/
def group3 : List Char → List Char
  | a :: b :: c :: d :: rest => a :: b :: c :: ',' :: group3 (d :: rest)
  | l => l

/-- `n.toLocaleString()` for a natural number. -/
def toLocaleString (n : Nat) : String :=
  ⟨(group3 (toString n).data.reverse).reverse⟩

/-- `(bytes / 1024 / 1024).toFixed(2)`: megabytes with two decimals, rounded
to nearest (the binary-float rounding noise of `toFixed` is not modelled). -/
def toFixed2MB (bytes : Nat) : String :=
  let h := (bytes * 100 + 524288) / 1048576
  toString (h / 100) ++ "." ++ (if h % 100 < 10 then "0" else "") ++
    toString (h % 100)

/-- `formatShellPreview`: first three lines of `output`/`stdout`, plus an
exit-code marker when the exit code is defined, non-null and non-zero, plus
an error marker when the `error` field is truthy. -/
def formatShellPreview (response : Json) : String :=
  let output := jsOr (jget response "output") (jsOr (jget response "stdout") (.jstr ""))
  let content :=
    match output with
    | .jstr s => s
    | v => stringifyC v
  let lines := strSplitNewline content
  let preview := String.intercalate "\n" (lines.take 3)
  let exitCode := jsNullish (jget response "exitCode") (jget response "exit_code")
  let preview :=
    match exitCode with
    | some v =>
        if v = Json.jnum 0 || v = Json.jnull then preview
        else preview ++ "\n[Exit Code: " ++ jsDisplay v ++ "]"
    | none => preview
  match jget response "error" with
  | some e => if jsTruthy e then preview ++ "\n[Error: " ++ jsDisplay e ++ "]" else preview
  | none => preview

/-- The preview selection of step 3 (lines 153–163): shell previews for the
shell tool, head-and-tail splice over 500 characters otherwise. -/
def computePreview (toolName : String) (originalResponse : Json)
    (content : String) : String :=
  if toolName = SHELL_TOOL_NAME then formatShellPreview originalResponse
  else if content.length > 500 then
    strTake 250 content ++ "\n... [TRUNCATED] ...\n" ++ strTakeRight 250 content
  else content

/-- `formatMaskedSnippet`: the fixed-shape guidance block that replaces a
masked observation. -/
def formatMaskedSnippet (toolName filePath fileSizeMB : String)
    (totalLines tokens : Nat) (preview : String) : String :=
  "[Observation Masked]\n<observation_masked_guidance tool_name=\"" ++ toolName ++
  "\">\n  <preview>" ++ preview ++ "</preview>\n  <details>\n    <file_path>" ++
  filePath ++ "</file_path>\n    <file_size>" ++ fileSizeMB ++
  "MB</file_size>\n    <line_count>" ++ toLocaleString totalLines ++
  "</line_count>\n    <estimated_total_tokens>" ++ toLocaleString tokens ++
  "</estimated_total_tokens>\n  </details>\n  <instructions>\n    The full output is available at the path above. \n    You can inspect it using tools like \x27" ++
  GREP_TOOL_NAME ++ "\x27 or \x27" ++ READ_FILE_TOOL_NAME ++
  "\x27.\n    Note: Reading the full file will use approximately " ++
  toLocaleString tokens ++ " tokens.\n  </instructions>\n</observation_masked_guidance>"

/-- Deterministic environment of a masking pass: the opaque token estimator,
the session history directory, and the injected sources of per-iteration
randomness (`Math.random` suffix stream) and time (`Date.now`). -/
structure MaskEnv where
  est : Part → Nat
  historyDir : String
  gensym : Nat → String
  nowId : String

/-- The observations directory `path.join(config.storage.getHistoryDir(),
OBSERVATION_DIR)`. -/
def MaskEnv.obsDir (env : MaskEnv) : String :=
  env.historyDir ++ "/" ++ OBSERVATION_DIR

/-- Accumulator of the step-3 masking loop: the history being rewritten, the
running `actualTokensSaved`, and the number of iterations that consumed a
random suffix. -/
structure ApplyState where
  hist : List Content
  saved : Int
  k : Nat
deriving DecidableEq

/-- The replacement function-response part for a prunable item whose current
part carries `fr`: everything but the `response` payload is preserved, and
the payload becomes `{ output: maskedSnippet }`. -/
def maskedPart (env : MaskEnv) (k : Nat) (fr : FunctionResponse)
    (item : PrunableItem) : Part :=
  let toolName := jsOrStr fr.name "unknown_tool"
  let callId := jsOrStr fr.id env.nowId
  let fileName := toolName ++ "_" ++ callId ++ "_" ++ env.gensym k ++ ".txt"
  let filePath := env.obsDir ++ "/" ++ fileName
  let originalResponse := jsOr fr.response (.jobj [])
  let totalLines := (strSplitNewline item.content).length
  let fileSizeMB := toFixed2MB item.content.utf8ByteSize
  let preview := computePreview toolName originalResponse item.content
  let maskedSnippet := formatMaskedSnippet toolName filePath fileSizeMB
    totalLines item.tokens preview
  .functionResponse { fr with response := some (.jobj [("output", .jstr maskedSnippet)]) }

/-- One iteration of the step-3 loop (lines 127–189): look the part up in the
current history, skip it unless it is still a function response, otherwise
replace it by `maskedPart` and account the savings. -/
def applyItem (env : MaskEnv) (st : ApplyState) (item : PrunableItem) :
    ApplyState :=
  let contentRecord := st.hist.getD item.contentIndex ⟨"", []⟩
  let part := contentRecord.parts.getD item.partIndex (.text "")
  match part with
  | .functionResponse fr =>
      let newPart := maskedPart env st.k fr item
      let newParts := contentRecord.parts.set item.partIndex newPart
      let newHist := st.hist.set item.contentIndex { contentRecord with parts := newParts }
      let newTaskTokens := env.est newPart
      { hist := newHist,
        saved := st.saved + ((item.tokens : Int) - (newTaskTokens : Int)),
        k := st.k + 1 }
  | _ => st

/-- `ObservationMaskingService.mask` together with the telemetry event it
emits: empty histories and passes whose prunable total is under the
hysteresis threshold return the input unchanged; otherwise every prunable
part is replaced and the telemetry event fires exactly when the savings are
strictly positive. -/
def maskFull (env : MaskEnv) (history : List Content) : MaskOutcome :=
  if history.length = 0 then ⟨⟨history, 0, 0⟩, none⟩
  else
    let st := scanHistory env.est history
    if st.total < HYSTERESIS_THRESHOLD then ⟨⟨history, 0, 0⟩, none⟩
    else
      let fin := st.items.foldl (applyItem env) ⟨history, 0, 0⟩
      let result : MaskingResult := ⟨fin.hist, st.items.length, fin.saved⟩
      if fin.saved ≤ 0 then ⟨result, none⟩
      else
        ⟨result, some ⟨st.total, (st.total : Int) - fin.saved, st.items.length, st.total⟩⟩

/-- The `MaskingResult` returned by `mask`. -/
def mask (env : MaskEnv) (history : List Content) : MaskingResult :=
  (maskFull env history).result

/-! ### `mask` with an explicit, fallible offload writer

The TypeScript `mask` awaits `fsPromises.writeFile(filePath, content)` for
every prunable part, with no surrounding try/catch: a rejected write
propagates out of `mask`.  `maskE` makes the writer explicit. -/

/-- Step-3 iteration in the `Except` monad: the offload write happens before
the part is rewritten, and a failing write aborts the whole pass. -/
def applyItemE (write : String → String → Except String Unit) (env : MaskEnv)
    (st : ApplyState) (item : PrunableItem) : Except String ApplyState :=
  let contentRecord := st.hist.getD item.contentIndex ⟨"", []⟩
  let part := contentRecord.parts.getD item.partIndex (.text "")
  match part with
  | .functionResponse fr =>
      let toolName := jsOrStr fr.name "unknown_tool"
      let callId := jsOrStr fr.id env.nowId
      let fileName := toolName ++ "_" ++ callId ++ "_" ++ env.gensym st.k ++ ".txt"
      let filePath := env.obsDir ++ "/" ++ fileName
      match write filePath item.content with
      | .error e => .error e
      | .ok _ =>
          let newPart := maskedPart env st.k fr item
          let newParts := contentRecord.parts.set item.partIndex newPart
          let newHist := st.hist.set item.contentIndex { contentRecord with parts := newParts }
          let newTaskTokens := env.est newPart
          .ok { hist := newHist,
                saved := st.saved + ((item.tokens : Int) - (newTaskTokens : Int)),
                k := st.k + 1 }
  | _ => .ok st

/-- `mask` with the offload-store writes threaded explicitly; a write error
aborts the pass and propagates to the caller. -/
def maskE (write : String → String → Except String Unit) (env : MaskEnv)
    (history : List Content) : Except String MaskOutcome :=
  if history.length = 0 then .ok ⟨⟨history, 0, 0⟩, none⟩
  else
    let st := scanHistory env.est history
    if st.total < HYSTERESIS_THRESHOLD then .ok ⟨⟨history, 0, 0⟩, none⟩
    else
      match st.items.foldlM (applyItemE write env) (⟨history, 0, 0⟩ : ApplyState) with
      | .error e => .error e
      | .ok fin =>
          let result : MaskingResult := ⟨fin.hist, st.items.length, fin.saved⟩
          if fin.saved ≤ 0 then .ok ⟨result, none⟩
          else
            .ok ⟨result, some ⟨st.total, (st.total : Int) - fin.saved, st.items.length, st.total⟩⟩

/-! ## Tool exposure / search layer

Modelled from the spec: the implementation file (`ToolRegistry` with
`getFunctionDeclarations` and the gating threshold) is not part of the
source tree at hand; only its test (`tools/tool-search.test.ts`) and the
`ToolSearchTool` declaration are.  The model follows spec section 4.3 and
the declaration in `tool-search-tool.ts`. -/

/-- Origin of a registered tool capability. -/
inductive ToolOrigin where
  | native : ToolOrigin
  | discovered : ToolOrigin
deriving DecidableEq

/-- A registered tool entry; `active` is the monotonic activation flag
(entries start Hidden/Visible and become Active by search or lookup). -/
structure ToolEntry where
  name : String
  description : String
  origin : ToolOrigin
  active : Bool
deriving DecidableEq

/-- Parameter schema of a function declaration. -/
structure ParamsSchema where
  properties : List (String × String)
  required : List String
deriving DecidableEq

/-- A function declaration sent to the model. -/
structure FunctionDecl where
  name : String
  description : String
  parameters : ParamsSchema
deriving DecidableEq

/-- Modelled from the spec: the fixed gating threshold on the cumulative
description size of discovered tools (30,000 characters). -/
def TOOL_DESCRIPTION_THRESHOLD : Nat := 30000

/-- The declaration of one registered entry. -/
def declOf (e : ToolEntry) : FunctionDecl :=
  ⟨e.name, e.description, ⟨[], []⟩⟩

/-- The synthetic `search_tools` declaration (`tool-search-tool.ts`): a
single required string parameter `query`. -/
def searchToolsDecl : FunctionDecl :=
  ⟨"search_tools",
   "Search for available tools that are not currently loaded in the context. Use this to find tools for specific tasks.",
   ⟨[("query", "string")], ["query"]⟩⟩

/-- Modelled from the spec: cumulative description size of the
`discovered`-origin entries. -/
def cumulativeDiscoveredSize (ts : List ToolEntry) : Nat :=
  (ts.filter (fun e => e.origin = .discovered)).foldl
    (fun a e => a + e.description.length) 0

/-- Modelled from the spec: `getFunctionDeclarations`.  Under the threshold
every entry is exposed; over it only `Active` entries plus every
`native`-origin entry are, together with the synthetic search
declaration. -/
def getFunctionDeclarations (ts : List ToolEntry) : List FunctionDecl :=
  if cumulativeDiscoveredSize ts > TOOL_DESCRIPTION_THRESHOLD then
    (ts.filter (fun e => e.origin = .native || e.active)).map declOf ++
      [searchToolsDecl]
  else ts.map declOf

/-! ## History-compression failure path

Modelled from the spec: `ChatCompressionService.compress`
(`services/chatCompressionService.ts`) is not part of the source tree at
hand; only its validation test is.  The model follows spec section 4.2 for
the compression skeleton: trigger ratio, split into early region and
preserved tail, per-response truncation of both regions, a model call that
produces the snapshot, and the fail-soft path on a failed call. -/

/-- Outcome status of a compression attempt. -/
inductive CompressionStatus where
  | compressed : CompressionStatus
  | noop : CompressionStatus
  | failed : CompressionStatus
deriving DecidableEq

/-- Result of `compress`. -/
structure CompressionResult where
  newHistory : List Content
  status : CompressionStatus
deriving DecidableEq

/-- Per-turn application of the per-response truncation. -/
def truncTurn (truncatePart : Part → Part) (c : Content) : Content :=
  { c with parts := c.parts.map truncatePart }

/-- Modelled from the spec: the early region sent to the summarization model
— everything before the preserved tail, with per-response truncation already
applied. -/
def earlyRegion (truncatePart : Part → Part) (keepTail : Nat → Nat)
    (history : List Content) : List Content :=
  (history.take (history.length - keepTail history.length)).map
    (truncTurn truncatePart)

/-- Modelled from the spec: `compress`.  `modelCall` is the summarization
call; `truncatePart` the per-response truncation; `keepTail n` the number of
newest turns preserved verbatim (the tail fraction); the trigger compares
`curTokens / limitTokens` to `ratioNum / ratioDen` unless `force` is set.
On a failed model call the original, untruncated history is returned and
failure is reported. -/
def compress (modelCall : List Content → Except String String)
    (truncatePart : Part → Part) (keepTail : Nat → Nat) (force : Bool)
    (curTokens limitTokens ratioNum ratioDen : Nat)
    (history : List Content) : CompressionResult :=
  if force = false ∧ curTokens * ratioDen ≤ ratioNum * limitTokens then
    ⟨history, .noop⟩
  else
    let cut := history.length - keepTail history.length
    let early := earlyRegion truncatePart keepTail history
    let tail := (history.drop cut).map (truncTurn truncatePart)
    match modelCall early with
    | .error _ => ⟨history, .failed⟩
    | .ok summary => ⟨⟨"user", [.text summary]⟩ :: tail, .compressed⟩

/-! ## Substring lemmas -/

theorem hasSub_iff (pat l : List Char) :
    hasSub pat l = true ↔ ∃ a b, l = a ++ pat ++ b := by
  induction l with
  | nil =>
      simp only [hasSub, List.isEmpty_iff]
      constructor
      · rintro rfl; exact ⟨[], [], rfl⟩
      · rintro ⟨a, b, h⟩
        rcases List.append_eq_nil.1 h.symm with ⟨h1, -⟩
        rcases List.append_eq_nil.1 h1 with ⟨-, h2⟩
        exact h2
  | cons c cs ih =>
      simp only [hasSub, Bool.or_eq_true, List.isPrefixOf_iff_prefix, ih]
      constructor
      · rintro (⟨t, ht⟩ | ⟨a, b, rfl⟩)
        · exact ⟨[], t, by simp [ht.symm]⟩
        · exact ⟨c :: a, b, by simp⟩
      · rintro ⟨a, b, h⟩
        match a, h with
        | [], h => exact Or.inl ⟨b, by simpa using h.symm⟩
        | x :: a, h =>
            simp only [List.cons_append, List.cons_eq_cons] at h
            exact Or.inr ⟨a, b, h.2⟩

theorem hasSub_append_left {pat l : List Char} (r : List Char)
    (h : hasSub pat l = true) : hasSub pat (l ++ r) = true := by
  rcases (hasSub_iff pat l).1 h with ⟨a, b, rfl⟩
  exact (hasSub_iff _ _).2 ⟨a, b ++ r, by simp⟩

theorem hasSub_append_right {pat l : List Char} (x : List Char)
    (h : hasSub pat l = true) : hasSub pat (x ++ l) = true := by
  rcases (hasSub_iff pat l).1 h with ⟨a, b, rfl⟩
  exact (hasSub_iff _ _).2 ⟨x ++ a, b, by simp⟩

theorem hasSub_cons {pat l : List Char} (c : Char)
    (h : hasSub pat l = true) : hasSub pat (c :: l) = true := by
  simpa using hasSub_append_right [c] h

/-- Characters that JSON escaping maps to themselves pass through a whole
escaped body unchanged. -/
theorem flatMap_escChar_of_id {pat : List Char}
    (hp : ∀ c ∈ pat, escChar c = [c]) : pat.flatMap escChar = pat := by
  induction pat with
  | nil => rfl
  | cons c cs ih =>
      rw [List.flatMap_cons, hp c (by simp), ih (fun d hd => hp d (by simp [hd]))]
      rfl

theorem hasSub_escStr {pat : List Char} {s : String}
    (hp : ∀ c ∈ pat, escChar c = [c]) (h : hasSub pat s.data = true) :
    hasSub pat (escStr s) = true := by
  rcases (hasSub_iff pat s.data).1 h with ⟨a, b, hd⟩
  have : escStr s = a.flatMap escChar ++ pat ++ b.flatMap escChar := by
    rw [escStr, hd]
    simp [List.flatMap_append, flatMap_escChar_of_id hp, List.append_assoc]
  rw [this]
  exact (hasSub_iff _ _).2 ⟨_, _, rfl⟩

/-- Every character of the guidance marker is escape-invariant. -/
theorem marker_escChar : ∀ c ∈ MASK_MARKER.data, escChar c = [c] := by decide

theorem hasSub_self (pat : List Char) : hasSub pat pat = true :=
  (hasSub_iff _ _).2 ⟨[], [], by simp⟩

/-- The guidance marker occurs in every formatted masked snippet. -/
theorem marker_in_snippet (tn fp mb : String) (tl tk : Nat) (pv : String) :
    hasSub MASK_MARKER.data (formatMaskedSnippet tn fp mb tl tk pv).data = true := by
  rw [formatMaskedSnippet]
  simp only [String.data_append]
  iterate 18 apply hasSub_append_left
  decide

/-- The serialized replacement payload `{ output: maskedSnippet }` carries
the marker whenever the snippet does. -/
theorem isAlreadyMasked_of_snippet {s : String}
    (h : hasSub MASK_MARKER.data s.data = true) :
    isAlreadyMasked (stringifyI 0 (.jobj [("output", .jstr s)])) = true := by
  have hq : hasSub MASK_MARKER.data (quoteStr s).data = true := by
    show hasSub MASK_MARKER.data ('"' :: (escStr s ++ ['"'])) = true
    exact hasSub_cons _ (hasSub_append_left _ (hasSub_escStr marker_escChar h))
  rw [isAlreadyMasked, strIncludes]
  show hasSub MASK_MARKER.data (stringifyI 0 (.jobj [("output", .jstr s)])).data = true
  simp only [stringifyI, stringifyIObj]
  simp only [String.data_append]
  iterate 3 apply hasSub_append_left
  apply hasSub_append_right
  apply hasSub_append_right
  exact hq

/-! ## The backward scan as a fold over a flat list of visits -/

/-- A scan visit: turn index, part index, part. -/
abbrev Visit := Nat × Nat × Part

/-- Position of a visit. -/
def vpos (v : Visit) : Nat × Nat := (v.1, v.2.1)

/-- Position of a prunable item. -/
def ipos (it : PrunableItem) : Nat × Nat := (it.contentIndex, it.partIndex)

/-- The visit sequence of one turn, parts newest to oldest. -/
def visitsOfTurn (i : Nat) (parts : List Part) : List Visit :=
  (parts.enum.reverse).map (fun jp => (i, jp.1, jp.2))

/-- The full visit sequence of the scan: turns newest to oldest, parts
newest to oldest within each turn. -/
def visits (h : List Content) : List Visit :=
  ((scannedPrefix h).enum.reverse).flatMap (fun ic => visitsOfTurn ic.1 ic.2.parts)

theorem foldl_flatMap {σ α β : Type} (f : σ → α → σ) (g : β → List α)
    (L : List β) (s : σ) :
    (L.flatMap g).foldl f s = L.foldl (fun s b => (g b).foldl f s) s := by
  induction L generalizing s with
  | nil => rfl
  | cons b L ih => rw [List.flatMap_cons, List.foldl_append, List.foldl_cons, ih]

theorem scanTurn_eq_foldl (est : Part → Nat) (i : Nat) (parts : List Part)
    (st : ScanState) :
    scanTurn est i parts st = (visitsOfTurn i parts).foldl (scanVisit est) st := by
  rw [visitsOfTurn, List.foldl_map]; rfl

theorem scanHistory_eq_foldl (est : Part → Nat) (h : List Content) :
    scanHistory est h = (visits h).foldl (scanVisit est) scanInit := by
  rw [scanHistory, visits, foldl_flatMap]
  simp only [scanTurn_eq_foldl]

/-- Classification of one visit's part: `none` when the scan skips it
(non-function-response, missing or falsy content, already masked), otherwise
the observation content it contributes. -/
def visitClass (p : Part) : Option String :=
  match p with
  | .functionResponse _ =>
      match getObservationContent p with
      | none => none
      | some c => if c = "" || isAlreadyMasked c then none else some c
  | _ => none

theorem visitClass_some {p : Part} {c : String} (h : visitClass p = some c) :
    getObservationContent p = some c ∧ c ≠ "" ∧ isAlreadyMasked c = false ∧
      ∃ fr, p = .functionResponse fr := by
  cases p with
  | text s => simp [visitClass] at h
  | inlineData d => simp [visitClass] at h
  | functionResponse fr =>
      cases hc : getObservationContent (.functionResponse fr) with
      | none => simp [visitClass, hc] at h
      | some c' =>
          simp only [visitClass, hc] at h
          by_cases hcond : (c' = "" || isAlreadyMasked c') = true
          · simp [hcond] at h
          · simp only [if_neg hcond, Option.some_inj] at h
            subst h
            simp only [Bool.or_eq_true, decide_eq_true_eq, not_or] at hcond
            exact ⟨rfl, hcond.1, by simpa using hcond.2, fr, rfl⟩

theorem scanVisit_skip {est : Part → Nat} {st : ScanState} {i j : Nat} {p : Part}
    (h : visitClass p = none) : scanVisit est st (i, j, p) = st := by
  cases p with
  | text s => rfl
  | inlineData d => rfl
  | functionResponse fr =>
      unfold scanVisit
      cases hc : getObservationContent (.functionResponse fr) with
      | none => simp only [hc]
      | some c =>
          simp only [visitClass, hc] at h
          simp only [hc]
          by_cases hcond : (c = "" || isAlreadyMasked c) = true
          · simp [hcond]
          · simp [hcond] at h

theorem scanVisit_active {est : Part → Nat} {st : ScanState} {i j : Nat}
    {p : Part} {c : String} (h : visitClass p = some c) :
    scanVisit est st (i, j, p) =
      (if st.boundary = false then
         if st.cumulative + est p > TOOL_PROTECTION_THRESHOLD then
           ⟨st.cumulative + est p, true, st.total + est p,
            st.items ++ [⟨i, j, est p, c, p⟩]⟩
         else { st with cumulative := st.cumulative + est p }
       else { st with total := st.total + est p,
                      items := st.items ++ [⟨i, j, est p, c, p⟩] }) := by
  obtain ⟨hgc, hne, hmask, fr, rfl⟩ := visitClass_some h
  unfold scanVisit
  simp only [hgc]
  have hcond : (c = "" || isAlreadyMasked c) = false := by simp [hne, hmask]
  simp only [hcond, Bool.false_eq_true, if_false]
  cases hb : st.boundary <;> simp [hb]

/-- Provenance of the items produced by a scan fold. -/
theorem scan_items_mem {est : Part → Nat} :
    ∀ (vs : List Visit) (st : ScanState) (it : PrunableItem),
      it ∈ ((vs.foldl (scanVisit est) st).items) →
      it ∈ st.items ∨ ∃ v ∈ vs, v = (it.contentIndex, it.partIndex, it.originalPart) ∧
        visitClass it.originalPart = some it.content ∧ it.tokens = est it.originalPart := by
  intro vs
  induction vs with
  | nil => intro st it h; exact Or.inl h
  | cons v vs ih =>
      intro st it h
      rw [List.foldl_cons] at h
      rcases ih _ it h with hmem | ⟨w, hw, hrest⟩
      · cases hcl : visitClass v.2.2 with
        | none =>
            rw [show v = (v.1, v.2.1, v.2.2) from rfl, scanVisit_skip hcl] at hmem
            exact Or.inl hmem
        | some c =>
            rw [show v = (v.1, v.2.1, v.2.2) from rfl, scanVisit_active hcl] at hmem
            split at hmem
            · split at hmem
              · rcases List.mem_append.1 hmem with hmem | hmem
                · exact Or.inl hmem
                · simp only [List.mem_singleton] at hmem
                  subst hmem
                  exact Or.inr ⟨(v.1, v.2.1, v.2.2), by simp, rfl, hcl, rfl⟩
              · exact Or.inl hmem
            · rcases List.mem_append.1 hmem with hmem | hmem
              · exact Or.inl hmem
              · simp only [List.mem_singleton] at hmem
                subst hmem
                exact Or.inr ⟨(v.1, v.2.1, v.2.2), by simp, rfl, hcl, rfl⟩
      · exact Or.inr ⟨w, List.mem_cons_of_mem _ hw, hrest⟩

/-- The positions that a scan fold appends form a sub-sequence of the visit
positions. -/
theorem scan_items_positions {est : Part → Nat} :
    ∀ (vs : List Visit) (st : ScanState),
      ∃ t, ((vs.foldl (scanVisit est) st).items).map ipos = st.items.map ipos ++ t ∧
        t.Sublist (vs.map vpos) := by
  intro vs
  induction vs with
  | nil => intro st; exact ⟨[], by simp, by simp⟩
  | cons v vs ih =>
      intro st
      rw [List.foldl_cons]
      cases hcl : visitClass v.2.2 with
      | none =>
          rw [show v = (v.1, v.2.1, v.2.2) from rfl, scanVisit_skip hcl]
          rcases ih st with ⟨t, ht, hsub⟩
          exact ⟨t, ht, hsub.cons _⟩
      | some c =>
          rw [show v = (v.1, v.2.1, v.2.2) from rfl, scanVisit_active hcl]
          split
          · split
            · rcases ih _ with ⟨t, ht, hsub⟩
              refine ⟨vpos v :: t, ?_, hsub.cons₂ _⟩
              rw [ht]
              simp [ipos, vpos]
            · rcases ih _ with ⟨t, ht, hsub⟩
              exact ⟨t, ht, hsub.cons _⟩
          · rcases ih _ with ⟨t, ht, hsub⟩
            refine ⟨vpos v :: t, ?_, hsub.cons₂ _⟩
            rw [ht]
            simp [ipos, vpos]

/-- Every visit of the scan reads the part actually stored at its position,
inside the scanned prefix. -/
theorem visits_mem {h : List Content} {v : Visit} (hv : v ∈ visits h) :
    v.1 < (scannedPrefix h).length ∧ partAt h v.1 v.2.1 = some v.2.2 := by
  rw [visits] at hv
  rcases List.mem_flatMap.1 hv with ⟨ic, hic, hvin⟩
  rw [List.mem_reverse] at hic
  obtain ⟨i, c⟩ := ic
  have hic' := List.mem_enum hic
  rcases hic' with ⟨hilt, hceq⟩
  rw [visitsOfTurn] at hvin
  rcases List.mem_map.1 hvin with ⟨jp, hjp, hveq⟩
  rw [List.mem_reverse] at hjp
  obtain ⟨j, p⟩ := jp
  have hjp' := List.mem_enum hjp
  rcases hjp' with ⟨hjlt, hpeq⟩
  subst hveq
  refine ⟨hilt, ?_⟩
  have hpre : (scannedPrefix h)[i]? = h[i]? := by
    rw [scannedPrefix] at hilt ⊢
    rw [List.getElem?_take]
    rw [List.length_take] at hilt
    have : i < (if PROTECT_LATEST_TURN = true then h.length - 1 else h.length) :=
      lt_of_lt_of_le hilt (min_le_left _ _)
    simp [this]
  have hci : h[i]? = some c := by
    rw [← hpre, List.getElem?_eq_some_iff]
    exact ⟨hilt, hceq.symm⟩
  show partAt h i j = some p
  rw [partAt, hci]
  rw [List.getElem?_eq_some_iff]
  exact ⟨hjlt, hpeq.symm⟩

/-- Joining key-tagged inner lists with distinct keys and duplicate-free
inner lists yields a duplicate-free list. -/
theorem nodup_flatMap_keyed {β : Type} (L : List (Nat × β))
    (g : Nat × β → List (Nat × Nat))
    (hkey : ∀ p ∈ L, ∀ x ∈ g p, x.1 = p.1)
    (hinner : ∀ p ∈ L, (g p).Nodup)
    (houter : (L.map Prod.fst).Nodup) : (L.flatMap g).Nodup := by
  induction L with
  | nil => simp
  | cons p L ih =>
      rw [List.flatMap_cons]
      simp only [List.map_cons, List.nodup_cons] at houter
      refine List.Nodup.append (hinner p (by simp)) ?_ ?_
      · exact ih (fun q hq x hx => hkey q (by simp [hq]) x hx)
          (fun q hq => hinner q (by simp [hq])) houter.2
      · intro x hxp hxL
        rcases List.mem_flatMap.1 hxL with ⟨q, hq, hxq⟩
        have h1 : x.1 = p.1 := hkey p (by simp) x hxp
        have h2 : x.1 = q.1 := hkey q (by simp [hq]) x hxq
        exact houter.1 (h1 ▸ h2 ▸ List.mem_map_of_mem Prod.fst hq)

/-- The scan never visits the same (turn, part) position twice. -/
theorem visits_vpos_nodup (h : List Content) : ((visits h).map vpos).Nodup := by
  rw [visits, List.map_flatMap]
  apply nodup_flatMap_keyed
  · intro ic _ x hx
    rw [visitsOfTurn, List.map_map] at hx
    rcases List.mem_map.1 hx with ⟨jp, -, hxeq⟩
    rw [← hxeq]
    rfl
  · intro ic _
    rw [visitsOfTurn, List.map_map]
    have heq : (vpos ∘ (fun jp : Nat × Part => ((ic.1 : Nat), jp.1, jp.2)))
        = (fun j => ((ic.1 : Nat), j)) ∘ Prod.fst := by
      funext jp; rfl
    rw [heq, ← List.map_map]
    refine List.Nodup.map ?_ ?_
    · intro a b hab
      simpa [Prod.ext_iff] using hab
    · rw [List.map_reverse, List.enum_map_fst]
      exact (List.nodup_reverse).2 (List.nodup_range _)
  · rw [List.map_reverse, List.enum_map_fst]
    exact (List.nodup_reverse).2 (List.nodup_range _)

/-- Facts about the prunable items of a full scan: each one records the part
actually stored at its position, its observation content, and its estimator
value. -/
theorem scan_items_facts {est : Part → Nat} {h : List Content} :
    ∀ it ∈ (scanHistory est h).items,
      it.contentIndex < (scannedPrefix h).length ∧
      partAt h it.contentIndex it.partIndex = some it.originalPart ∧
      visitClass it.originalPart = some it.content ∧
      it.tokens = est it.originalPart := by
  intro it hit
  rw [scanHistory_eq_foldl] at hit
  rcases scan_items_mem _ _ _ hit with hmem | ⟨v, hv, hveq, hcl, htok⟩
  · simp [scanInit] at hmem
  · have hsrc := visits_mem hv
    rw [hveq] at hsrc
    exact ⟨hsrc.1, hsrc.2, hcl, htok⟩

/-- The prunable set never contains the same position twice. -/
theorem scan_items_ipos_nodup (est : Part → Nat) (h : List Content) :
    (((scanHistory est h).items).map ipos).Nodup := by
  rw [scanHistory_eq_foldl]
  rcases scan_items_positions (visits h) scanInit with ⟨t, ht, hsub⟩
  rw [ht]
  have : (scanInit.items).map ipos = [] := rfl
  rw [this, List.nil_append]
  exact hsub.nodup (visits_vpos_nodup h)

/-! ## Characterization of the masking loop (step 3) -/

/-- The part that replaces a prunable item in the rewritten history (given
the gensym index it is processed at). -/
def replacementOf (env : MaskEnv) (k : Nat) (it : PrunableItem) : Part :=
  match it.originalPart with
  | .functionResponse fr => maskedPart env k fr it
  | p => p

/-- The token savings the loop accumulates over a list of items, starting at
gensym index `k`. -/
def savedSumTok (env : MaskEnv) : Nat → List PrunableItem → Int
  | _, [] => 0
  | k, it :: rest =>
      ((it.tokens : Int) - (env.est (replacementOf env k it) : Int)) +
        savedSumTok env (k + 1) rest

theorem getD_of_getElem? {α : Type} {l : List α} {n : Nat} {a : α} {d : α}
    (h : l[n]? = some a) : l.getD n d = a := by
  rw [List.getD_eq_getElem?_getD, h]; rfl

theorem replacementOf_eq {env : MaskEnv} {k : Nat} {it : PrunableItem}
    {fr : FunctionResponse} (hfr : it.originalPart = .functionResponse fr) :
    replacementOf env k it = maskedPart env k fr it := by
  unfold replacementOf; rw [hfr]

theorem partAt_eq_some {h : List Content} {i j : Nat} {p : Part} :
    partAt h i j = some p ↔ ∃ c, h[i]? = some c ∧ c.parts[j]? = some p := by
  unfold partAt
  cases hc : h[i]? with
  | none => simp
  | some c => simp [hc]

theorem partAt_set_ne {h : List Content} {i j : Nat} {c : Content} {p : Part}
    (hc : h[i]? = some c) {i' j' : Nat} (hne : ¬(i' = i ∧ j' = j)) :
    partAt (h.set i { c with parts := c.parts.set j p }) i' j' = partAt h i' j' := by
  rcases eq_or_ne i' i with rfl | hii
  · have hj : j' ≠ j := fun hj => hne ⟨rfl, hj⟩
    unfold partAt
    rw [List.getElem?_set_self', hc]
    show ((c.parts.set j p))[j']? = _
    rw [List.getElem?_set_ne (fun hh => hj hh.symm)]
  · unfold partAt
    rw [List.getElem?_set_ne (fun hh => hii hh.symm)]

theorem partAt_set_self {h : List Content} {i j : Nat} {c : Content}
    {p q : Part} (hc : h[i]? = some c) (hj : c.parts[j]? = some q) :
    partAt (h.set i { c with parts := c.parts.set j p }) i j = some p := by
  unfold partAt
  rw [List.getElem?_set_self', hc]
  show ((c.parts.set j p))[j]? = some p
  rw [List.getElem?_set_self', hj]
  rfl

theorem applyItem_eq {env : MaskEnv} {st : ApplyState} {it : PrunableItem}
    {c : Content} {fr : FunctionResponse}
    (hc : st.hist[it.contentIndex]? = some c)
    (hp : c.parts[it.partIndex]? = some (.functionResponse fr)) :
    applyItem env st it =
      ⟨st.hist.set it.contentIndex
          { c with parts := c.parts.set it.partIndex (maskedPart env st.k fr it) },
        st.saved + ((it.tokens : Int) - (env.est (maskedPart env st.k fr it) : Int)),
        st.k + 1⟩ := by
  simp only [applyItem, getD_of_getElem? hc, getD_of_getElem? hp]

/-- Full characterization of the step-3 loop over a list of prunable items
whose positions are distinct and hold function-response parts: lengths,
counter and savings accounting, frame conditions at untouched positions, and
the replacement placed at each item's position. -/
theorem apply_fold (env : MaskEnv) :
    ∀ (items : List PrunableItem) (st : ApplyState),
      (∀ it ∈ items, (∃ fr, it.originalPart = Part.functionResponse fr) ∧
          partAt st.hist it.contentIndex it.partIndex = some it.originalPart) →
      ((items.map ipos).Nodup) →
      (items.foldl (applyItem env) st).hist.length = st.hist.length ∧
      (items.foldl (applyItem env) st).k = st.k + items.length ∧
      (items.foldl (applyItem env) st).saved = st.saved + savedSumTok env st.k items ∧
      (∀ i : Nat, (∀ it ∈ items, it.contentIndex ≠ i) →
        ((items.foldl (applyItem env) st).hist)[i]? = st.hist[i]?) ∧
      (∀ i j : Nat, (∀ it ∈ items, ¬(it.contentIndex = i ∧ it.partIndex = j)) →
        partAt (items.foldl (applyItem env) st).hist i j = partAt st.hist i j) ∧
      (∀ k : Nat, ∀ hk : k < items.length,
        partAt (items.foldl (applyItem env) st).hist
            (items[k].contentIndex) (items[k].partIndex) =
          some (replacementOf env (st.k + k) items[k])) ∧
      (∀ (i : Nat) (c : Content), st.hist[i]? = some c →
        ∃ c' : Content, ((items.foldl (applyItem env) st).hist)[i]? = some c' ∧
          c'.role = c.role ∧ c'.parts.length = c.parts.length) := by
  intro items
  induction items with
  | nil =>
      intro st _ _
      refine ⟨rfl, by simp, by simp [savedSumTok], fun i _ => rfl, fun i j _ => rfl,
        fun k hk => absurd hk (by simp), fun i c hc => ⟨c, hc, rfl, rfl⟩⟩
  | cons it rest ih =>
      intro st hsrc hnodup
      obtain ⟨⟨fr, hfr⟩, hpart⟩ := hsrc it (by simp)
      rcases partAt_eq_some.1 hpart with ⟨c, hc, hpj⟩
      rw [hfr] at hpj
      have hstep := @applyItem_eq env st it _ _ hc hpj
      have hheadpos : ipos it ∉ rest.map ipos := by
        rw [List.map_cons, List.nodup_cons] at hnodup
        exact hnodup.1
      have hnodup' : (rest.map ipos).Nodup := by
        rw [List.map_cons, List.nodup_cons] at hnodup
        exact hnodup.2
      set st' : ApplyState :=
        ⟨st.hist.set it.contentIndex
            { c with parts := c.parts.set it.partIndex (maskedPart env st.k fr it) },
          st.saved + ((it.tokens : Int) - (env.est (maskedPart env st.k fr it) : Int)),
          st.k + 1⟩ with hst'
      have hne_of_mem : ∀ it' ∈ rest, ¬(it'.contentIndex = it.contentIndex ∧
          it'.partIndex = it.partIndex) := by
        intro it' hit' heq
        apply hheadpos
        have : ipos it' = ipos it := by
          rw [ipos, ipos, heq.1, heq.2]
        exact this ▸ List.mem_map_of_mem ipos hit'
      have hsrc' : ∀ it' ∈ rest, (∃ fr', it'.originalPart = Part.functionResponse fr') ∧
          partAt st'.hist it'.contentIndex it'.partIndex = some it'.originalPart := by
        intro it' hit'
        obtain ⟨hfr', hpart'⟩ := hsrc it' (by simp [hit'])
        refine ⟨hfr', ?_⟩
        rw [hst']
        show partAt (st.hist.set it.contentIndex _) _ _ = _
        rw [partAt_set_ne hc (hne_of_mem it' hit')]
        exact hpart'
      have hfold : (it :: rest).foldl (applyItem env) st = rest.foldl (applyItem env) st' := by
        rw [List.foldl_cons, hstep, hst']
      obtain ⟨iha, ihk, ihs, ihb, ihc, ihd, ihe⟩ := ih st' hsrc' hnodup'
      rw [hfold]
      refine ⟨?_, ?_, ?_, ?_, ?_, ?_, ?_⟩
      · rw [iha, hst']
        exact List.length_set st.hist _ _
      · rw [ihk, hst']
        simp only [List.length_cons]
        omega
      · rw [ihs, hst']
        show st.saved + ((it.tokens : Int) - (env.est (maskedPart env st.k fr it) : Int)) +
            savedSumTok env (st.k + 1) rest = st.saved + savedSumTok env st.k (it :: rest)
        rw [savedSumTok, replacementOf_eq hfr]
        omega
      · intro i hi
        rw [ihb i (fun it' hit' => hi it' (by simp [hit']))]
        rw [hst']
        show (st.hist.set it.contentIndex _)[i]? = _
        rw [List.getElem?_set_ne (hi it (by simp))]
      · intro i j hij
        rw [ihc i j (fun it' hit' => hij it' (by simp [hit']))]
        rw [hst']
        show partAt (st.hist.set it.contentIndex _) i j = _
        rw [partAt_set_ne hc ?_]
        intro heq
        exact hij it (by simp) ⟨heq.1.symm, heq.2.symm⟩
      · intro k hk
        match k with
        | 0 =>
            simp only [List.getElem_cons_zero]
            rw [ihc it.contentIndex it.partIndex (fun it' hit' => hne_of_mem it' hit')]
            rw [hst']
            show partAt (st.hist.set it.contentIndex _) _ _ = _
            rw [partAt_set_self hc hpj, Nat.add_zero, replacementOf_eq hfr]
        | k' + 1 =>
            have hk' : k' < rest.length := by
              simp only [List.length_cons] at hk
              omega
            have := ihd k' hk'
            simp only [List.getElem_cons_succ]
            rw [hst'] at this
            show partAt (rest.foldl (applyItem env) st').hist _ _ = _
            have harith : st.k + 1 + k' = st.k + (k' + 1) := by omega
            rw [← harith]
            exact this
      · intro i cc hcc
        rcases eq_or_ne i it.contentIndex with rfl | hii
        · have hcc' : cc = c := by
            rw [hcc] at hc
            exact Option.some_inj.1 hc
          rw [hcc']
          have : st'.hist[it.contentIndex]? =
              some { c with parts := c.parts.set it.partIndex (maskedPart env st.k fr it) } := by
            rw [hst']
            show (st.hist.set it.contentIndex _)[it.contentIndex]? = _
            rw [List.getElem?_set_self', hc]
            rfl
          rcases ihe it.contentIndex _ this with ⟨c', hc', hrole, hlen⟩
          refine ⟨c', hc', hrole, ?_⟩
          rw [hlen]
          exact List.length_set c.parts _ _
        · have : st'.hist[i]? = some cc := by
            rw [hst']
            show (st.hist.set it.contentIndex _)[i]? = _
            rw [List.getElem?_set_ne (fun hh => hii hh.symm)]
            exact hcc
          exact ihe i cc this

/-! ## Top-level characterization of `maskFull` -/

theorem scanHistory_nil (est : Part → Nat) : scanHistory est [] = scanInit := rfl

theorem mask_not_triggered {env : MaskEnv} {h : List Content}
    (hlow : (scanHistory env.est h).total < HYSTERESIS_THRESHOLD) :
    maskFull env h = ⟨⟨h, 0, 0⟩, none⟩ := by
  unfold maskFull
  by_cases hl : h.length = 0
  · simp [hl]
  · simp [hl, hlow]

theorem length_ne_zero_of_triggered {env : MaskEnv} {h : List Content}
    (htrig : ¬ (scanHistory env.est h).total < HYSTERESIS_THRESHOLD) :
    ¬ h.length = 0 := by
  intro hl
  rw [List.length_eq_zero] at hl
  subst hl
  exact htrig (by norm_num [scanHistory_nil, scanInit, HYSTERESIS_THRESHOLD])

theorem maskFull_triggered {env : MaskEnv} {h : List Content}
    (htrig : ¬ (scanHistory env.est h).total < HYSTERESIS_THRESHOLD) :
    maskFull env h =
      ⟨⟨((scanHistory env.est h).items.foldl (applyItem env) ⟨h, 0, 0⟩).hist,
        (scanHistory env.est h).items.length,
        ((scanHistory env.est h).items.foldl (applyItem env) ⟨h, 0, 0⟩).saved⟩,
       if ((scanHistory env.est h).items.foldl (applyItem env) ⟨h, 0, 0⟩).saved ≤ 0 then none
       else some ⟨(scanHistory env.est h).total,
         ((scanHistory env.est h).total : Int) -
           ((scanHistory env.est h).items.foldl (applyItem env) ⟨h, 0, 0⟩).saved,
         (scanHistory env.est h).items.length, (scanHistory env.est h).total⟩⟩ := by
  have h1 := length_ne_zero_of_triggered htrig
  by_cases hs : ((scanHistory env.est h).items.foldl (applyItem env) ⟨h, 0, 0⟩).saved ≤ 0
  · simp [maskFull, h1, htrig, hs]
  · simp [maskFull, h1, htrig, hs]

/-- Every prunable item of the scan records a function-response part stored
at its position in the history. -/
theorem mask_items_spec (env : MaskEnv) (h : List Content) :
    ∀ it ∈ (scanHistory env.est h).items,
      (∃ fr, it.originalPart = Part.functionResponse fr) ∧
      partAt h it.contentIndex it.partIndex = some it.originalPart := by
  intro it hit
  obtain ⟨-, hpart, hcl, -⟩ := scan_items_facts it hit
  obtain ⟨-, -, -, fr, hfr⟩ := visitClass_some hcl
  exact ⟨⟨fr, hfr⟩, hpart⟩

/-! ## A `Forall₂` toolkit for relating the visits of two histories -/

theorem forall₂_append {α β : Type} {R : α → β → Prop} :
    ∀ {l1 : List α} {l2 : List β} {l3 : List α} {l4 : List β},
      List.Forall₂ R l1 l2 → List.Forall₂ R l3 l4 →
      List.Forall₂ R (l1 ++ l3) (l2 ++ l4) := by
  intro l1 l2 l3 l4 h12 h34
  induction h12 with
  | nil => exact h34
  | cons hr _ ih => exact List.Forall₂.cons hr ih

theorem forall₂_reverse {α β : Type} {R : α → β → Prop} :
    ∀ {l1 : List α} {l2 : List β}, List.Forall₂ R l1 l2 →
      List.Forall₂ R l1.reverse l2.reverse := by
  intro l1 l2 h
  induction h with
  | nil => exact List.Forall₂.nil
  | cons hr _ ih =>
      simp only [List.reverse_cons]
      exact forall₂_append ih (List.Forall₂.cons hr List.Forall₂.nil)

theorem forall₂_map {α β α' β' : Type} {R : α → β → Prop} {S : α' → β' → Prop}
    (f : α → α') (g : β → β') (hfg : ∀ a b, R a b → S (f a) (g b)) :
    ∀ {l1 : List α} {l2 : List β}, List.Forall₂ R l1 l2 →
      List.Forall₂ S (l1.map f) (l2.map g) := by
  intro l1 l2 h
  induction h with
  | nil => exact List.Forall₂.nil
  | cons hr _ ih => exact List.Forall₂.cons (hfg _ _ hr) ih

theorem forall₂_flatMap {α β α' β' : Type} {R : α → β → Prop} {S : α' → β' → Prop}
    (f : α → List α') (g : β → List β')
    (hfg : ∀ a b, R a b → List.Forall₂ S (f a) (g b)) :
    ∀ {l1 : List α} {l2 : List β}, List.Forall₂ R l1 l2 →
      List.Forall₂ S (l1.flatMap f) (l2.flatMap g) := by
  intro l1 l2 h
  induction h with
  | nil => exact List.Forall₂.nil
  | cons hr _ ih =>
      rw [List.flatMap_cons, List.flatMap_cons]
      exact forall₂_append (hfg _ _ hr) ih

theorem forall₂_strengthen {α β : Type} {R : α → β → Prop} {P : α → Prop}
    {Q : β → Prop} :
    ∀ {as : List α} {bs : List β}, List.Forall₂ R as bs →
      (∀ a ∈ as, P a) → (∀ b ∈ bs, Q b) →
      List.Forall₂ (fun a b => R a b ∧ P a ∧ Q b) as bs := by
  intro as bs h
  induction h with
  | nil => intro _ _; exact List.Forall₂.nil
  | cons hr _ ih =>
      intro hP hQ
      exact List.Forall₂.cons ⟨hr, hP _ (by simp), hQ _ (by simp)⟩
        (ih (fun a ha => hP a (by simp [ha])) (fun b hb => hQ b (by simp [hb])))

theorem forall₂_enumFrom {α : Type} {T : α → α → Prop} :
    ∀ (l l' : List α) (n : Nat), l'.length = l.length →
      (∀ (k : Nat) (a a' : α), l[k]? = some a → l'[k]? = some a' → T a a') →
      List.Forall₂ (fun p q => q.1 = p.1 ∧ T p.2 q.2)
        (List.enumFrom n l) (List.enumFrom n l') := by
  intro l
  induction l with
  | nil =>
      intro l' n hlen _
      rw [List.length_eq_zero.1 hlen]
      exact List.Forall₂.nil
  | cons a l ih =>
      intro l' n hlen hT
      cases l' with
      | nil => simp at hlen
      | cons a' l' =>
          rw [List.enumFrom_cons, List.enumFrom_cons]
          refine List.Forall₂.cons ⟨rfl, hT 0 a a' (by simp) (by simp)⟩ ?_
          refine ih l' (n + 1) (by simpa using hlen) ?_
          intro k b b' hb hb'
          exact hT (k + 1) b b' (by simpa using hb) (by simpa using hb')

theorem forall₂_enum {α : Type} {T : α → α → Prop} (l l' : List α)
    (hlen : l'.length = l.length)
    (hT : ∀ (k : Nat) (a a' : α), l[k]? = some a → l'[k]? = some a' → T a a') :
    List.Forall₂ (fun p q => q.1 = p.1 ∧ T p.2 q.2) l.enum l'.enum := by
  rw [List.enum_eq_enumFrom, List.enum_eq_enumFrom]
  exact forall₂_enumFrom l l' 0 hlen hT

/-- Two histories of the same shape (same length, pointwise same number of
parts) generate position-aligned visit sequences, each visit reading the
part stored at its position. -/
theorem visits_forall₂ {h h' : List Content} (hlen : h'.length = h.length)
    (hshape : ∀ (i : Nat) (c : Content), h[i]? = some c →
      ∃ c', h'[i]? = some c' ∧ c'.parts.length = c.parts.length) :
    List.Forall₂ (fun v v' => (v'.1 = v.1 ∧ v'.2.1 = v.2.1) ∧
        (partAt h v.1 v.2.1 = some v.2.2) ∧
        (partAt h' v'.1 v'.2.1 = some v'.2.2))
      (visits h) (visits h') := by
  have hpre_len : (scannedPrefix h').length = (scannedPrefix h).length := by
    rw [scannedPrefix, scannedPrefix, List.length_take, List.length_take, hlen]
  have hpre_get : ∀ (g : List Content) (k : Nat) (c : Content),
      (scannedPrefix g)[k]? = some c → g[k]? = some c := by
    intro g k c hc
    rw [scannedPrefix, List.getElem?_take] at hc
    split_ifs at hc <;> simp_all
  have houter : List.Forall₂
      (fun (p q : Nat × Content) => q.1 = p.1 ∧ q.2.parts.length = p.2.parts.length)
      (scannedPrefix h).enum (scannedPrefix h').enum := by
    refine forall₂_enum (T := fun c c' => c'.parts.length = c.parts.length) _ _ hpre_len ?_
    intro k c c' hc hc'
    rcases hshape k c (hpre_get h k c hc) with ⟨c'', hc'', hlen2⟩
    have hcc : h'[k]? = some c' := hpre_get h' k c' hc'
    rw [hc''] at hcc
    have hee : c'' = c' := Option.some_inj.1 hcc
    rw [← hee]
    exact hlen2
  have houter' := forall₂_reverse houter
  have hstep : ∀ (ic ic' : Nat × Content),
      ic'.1 = ic.1 ∧ ic'.2.parts.length = ic.2.parts.length →
      List.Forall₂ (fun v v' : Visit => v'.1 = v.1 ∧ v'.2.1 = v.2.1)
        (visitsOfTurn ic.1 ic.2.parts) (visitsOfTurn ic'.1 ic'.2.parts) := by
    rintro ic ic' ⟨hi, hplen⟩
    rw [visitsOfTurn, visitsOfTurn]
    have hinner : List.Forall₂
        (fun (p q : Nat × Part) => q.1 = p.1 ∧ True)
        ic.2.parts.enum ic'.2.parts.enum :=
      forall₂_enum _ _ hplen (fun _ _ _ _ _ => trivial)
    have hinner' := forall₂_reverse hinner
    refine forall₂_map _ _ ?_ hinner'
    rintro jp jp' ⟨hj, -⟩
    exact ⟨hi, hj⟩
  have hbase : List.Forall₂ (fun v v' : Visit => v'.1 = v.1 ∧ v'.2.1 = v.2.1)
      (visits h) (visits h') := by
    rw [visits, visits]
    exact forall₂_flatMap _ _ hstep houter'
  exact forall₂_strengthen hbase (fun v hv => (visits_mem hv).2)
    (fun v hv => (visits_mem hv).2)

/-! ## A second scan over a masked history finds nothing -/

theorem scanVisit_skip' {est : Part → Nat} {st : ScanState} {v : Visit}
    (h : visitClass v.2.2 = none) : scanVisit est st v = st := by
  obtain ⟨i, j, p⟩ := v
  exact scanVisit_skip h

theorem scanVisit_active' {est : Part → Nat} {st : ScanState} {v : Visit}
    {c : String} (h : visitClass v.2.2 = some c) :
    scanVisit est st v =
      (if st.boundary = false then
         if st.cumulative + est v.2.2 > TOOL_PROTECTION_THRESHOLD then
           ⟨st.cumulative + est v.2.2, true, st.total + est v.2.2,
            st.items ++ [⟨v.1, v.2.1, est v.2.2, c, v.2.2⟩]⟩
         else { st with cumulative := st.cumulative + est v.2.2 }
       else { st with total := st.total + est v.2.2,
                      items := st.items ++ [⟨v.1, v.2.1, est v.2.2, c, v.2.2⟩] }) := by
  obtain ⟨i, j, p⟩ := v
  exact scanVisit_active h

/-- Membership in a fold's item positions is preserved from the starting
state. -/
theorem ipos_mem_fold {est : Part → Nat} (vs : List Visit) (st : ScanState)
    {q : Nat × Nat} (hq : q ∈ st.items.map ipos) :
    q ∈ ((vs.foldl (scanVisit est) st).items.map ipos) := by
  rcases scan_items_positions vs st with ⟨t, ht, -⟩
  rw [ht]
  exact List.mem_append_left _ hq

/-- Core idempotence argument: scanning a visit list `vs'` whose visits
either coincide with those of a previous scan `vs` or are skipped — and
are skipped at least at every position the previous scan turned into an
item — accumulates nothing, because the non-itemised contributions kept the
previous cumulative below the protection threshold. -/
theorem scan2_aux (est : Part → Nat) (F : List (Nat × Nat)) :
    ∀ {vs vs' : List Visit},
      List.Forall₂ (fun v v' =>
        (vpos v ∈ F → visitClass v'.2.2 = none) ∧ (vpos v ∉ F → v' = v)) vs vs' →
      ∀ (st1 st2 : ScanState),
      F = ((vs.foldl (scanVisit est) st1).items.map ipos) →
      (vs.map vpos).Nodup →
      (∀ it ∈ st1.items, ipos it ∉ vs.map vpos) →
      st2.boundary = false → st2.items = [] → st2.total = 0 →
      st2.cumulative ≤ st1.cumulative →
      (vs'.foldl (scanVisit est) st2).items = [] ∧
        (vs'.foldl (scanVisit est) st2).total = 0 := by
  intro vs vs' hrel
  induction hrel with
  | nil =>
      intro st1 st2 _ _ _ hb hi ht _
      exact ⟨hi, ht⟩
  | @cons v v' rest rest' hhead htail ih =>
      intro st1 st2 hF hnodup hdisj hb hi ht hcum
      rw [List.foldl_cons] at hF
      have hnodup_tail : (rest.map vpos).Nodup := by
        rw [List.map_cons, List.nodup_cons] at hnodup
        exact hnodup.2
      have hhead_notin : vpos v ∉ rest.map vpos := by
        rw [List.map_cons, List.nodup_cons] at hnodup
        exact hnodup.1
      cases hclass : visitClass v.2.2 with
      | none =>
          have hst1' : scanVisit est st1 v = st1 := scanVisit_skip' hclass
          rw [hst1'] at hF
          have hcl' : visitClass v'.2.2 = none := by
            by_cases hm : vpos v ∈ F
            · exact hhead.1 hm
            · rw [hhead.2 hm]; exact hclass
          rw [List.foldl_cons, scanVisit_skip' hcl']
          refine ih st1 st2 hF hnodup_tail ?_ hb hi ht hcum
          intro it hit
          have := hdisj it hit
          rw [List.map_cons] at this
          exact fun hmem => this (List.mem_cons_of_mem _ hmem)
      | some c =>
          have hstep := @scanVisit_active' est st1 _ _ hclass
          cases hbnd : st1.boundary with
          | true =>
              rw [hbnd] at hstep
              simp only [Bool.true_eq_false, if_false] at hstep
              rw [hstep] at hF
              have hmem : vpos v ∈ F := by
                rw [hF]
                refine ipos_mem_fold rest _ ?_
                simp [ipos, vpos]
              have hcl' : visitClass v'.2.2 = none := hhead.1 hmem
              rw [List.foldl_cons, scanVisit_skip' hcl']
              refine ih _ st2 hF hnodup_tail ?_ hb hi ht hcum
              intro it hit
              have hit2 : it ∈ st1.items ++ [⟨v.1, v.2.1, est v.2.2, c, v.2.2⟩] := hit
              rcases List.mem_append.1 hit2 with hit3 | hit3
              · have := hdisj it hit3
                rw [List.map_cons] at this
                exact fun hmem2 => this (List.mem_cons_of_mem _ hmem2)
              · rw [List.mem_singleton] at hit3
                subst hit3
                simpa [ipos, vpos] using hhead_notin
          | false =>
              rw [hbnd] at hstep
              simp only [if_pos rfl] at hstep
              by_cases hcross : st1.cumulative + est v.2.2 > TOOL_PROTECTION_THRESHOLD
              · rw [if_pos hcross] at hstep
                rw [hstep] at hF
                have hmem : vpos v ∈ F := by
                  rw [hF]
                  refine ipos_mem_fold rest _ ?_
                  simp [ipos, vpos]
                have hcl' : visitClass v'.2.2 = none := hhead.1 hmem
                rw [List.foldl_cons, scanVisit_skip' hcl']
                refine ih _ st2 hF hnodup_tail ?_ hb hi ht ?_
                · intro it hit
                  have hit2 : it ∈ st1.items ++ [⟨v.1, v.2.1, est v.2.2, c, v.2.2⟩] := hit
                  rcases List.mem_append.1 hit2 with hit3 | hit3
                  · have := hdisj it hit3
                    rw [List.map_cons] at this
                    exact fun hmem2 => this (List.mem_cons_of_mem _ hmem2)
                  · rw [List.mem_singleton] at hit3
                    subst hit3
                    simpa [ipos, vpos] using hhead_notin
                · show st2.cumulative ≤ st1.cumulative + est v.2.2
                  omega
              · rw [if_neg hcross] at hstep
                rw [hstep] at hF
                have hnm : vpos v ∉ F := by
                  intro hmem
                  rw [hF] at hmem
                  rcases scan_items_positions rest _ with ⟨t, htEq, hsub⟩
                  rw [htEq] at hmem
                  rcases List.mem_append.1 hmem with hmem | hmem
                  · rcases List.mem_map.1 hmem with ⟨it, hit, hip⟩
                    have := hdisj it hit
                    rw [List.map_cons] at this
                    exact this (hip ▸ List.mem_cons_self _ _)
                  · exact hhead_notin (hsub.subset hmem)
                have hv' : v' = v := hhead.2 hnm
                rw [List.foldl_cons, hv', scanVisit_active' hclass, if_pos hb]
                have hnocross2 : ¬ st2.cumulative + est v.2.2 > TOOL_PROTECTION_THRESHOLD := by
                  omega
                rw [if_neg hnocross2]
                refine ih _ _ hF hnodup_tail ?_ hb hi ht ?_
                · intro it hit
                  have := hdisj it hit
                  rw [List.map_cons] at this
                  exact fun hmem2 => this (List.mem_cons_of_mem _ hmem2)
                · show st2.cumulative + est v.2.2 ≤ st1.cumulative + est v.2.2
                  omega

/-- A replacement part is always skipped by a later scan: its serialized
response carries the guidance marker. -/
theorem visitClass_maskedPart (env : MaskEnv) (k : Nat) (fr : FunctionResponse)
    (it : PrunableItem) : visitClass (maskedPart env k fr it) = none := by
  have hsplit : ∃ s : String, maskedPart env k fr it =
      .functionResponse ⟨fr.name, fr.id, some (.jobj [("output", .jstr s)])⟩ ∧
      hasSub MASK_MARKER.data s.data = true :=
    ⟨_, rfl, marker_in_snippet _ _ _ _ _ _⟩
  rcases hsplit with ⟨s, heq, hm⟩
  rw [heq]
  have hmask := isAlreadyMasked_of_snippet hm
  simp [visitClass, getObservationContent, jsTruthy, hmask]

/-- After a triggered masking pass, a fresh scan of the new history produces
no prunable items and a zero prunable total. -/
theorem scan_of_masked_empty (env : MaskEnv) (h : List Content) :
    (scanHistory env.est
        (((scanHistory env.est h).items.foldl (applyItem env) ⟨h, 0, 0⟩).hist)).items = [] ∧
    (scanHistory env.est
        (((scanHistory env.est h).items.foldl (applyItem env) ⟨h, 0, 0⟩).hist)).total = 0 := by
  obtain ⟨ha, hk, hs, hframe_turn, hframe_part, hrepl, hshape⟩ :=
    apply_fold env (scanHistory env.est h).items ⟨h, 0, 0⟩
      (mask_items_spec env h) (scan_items_ipos_nodup env.est h)
  set items := (scanHistory env.est h).items with hitems
  set fin := items.foldl (applyItem env) (⟨h, 0, 0⟩ : ApplyState) with hfin
  have hlen : fin.hist.length = h.length := ha
  have hshape' : ∀ (i : Nat) (c : Content), h[i]? = some c →
      ∃ c', fin.hist[i]? = some c' ∧ c'.parts.length = c.parts.length := by
    intro i c hc
    rcases hshape i c hc with ⟨c', hc', -, hlenc⟩
    exact ⟨c', hc', hlenc⟩
  have hforall := @visits_forall₂ h fin.hist hlen hshape'
  have hrel : List.Forall₂ (fun v v' =>
      (vpos v ∈ items.map ipos → visitClass v'.2.2 = none) ∧
      (vpos v ∉ items.map ipos → v' = v)) (visits h) (visits fin.hist) := by
    refine List.Forall₂.imp ?_ hforall
    rintro v v' ⟨⟨hi1, hj1⟩, hpv, hpv'⟩
    constructor
    · intro hm
      rcases List.mem_map.1 hm with ⟨it, hit, hip⟩
      rcases List.mem_iff_getElem.1 hit with ⟨kk, hkk, hkeq⟩
      have hrk := hrepl kk hkk
      rw [hkeq] at hrk
      have hzero : (⟨h, 0, 0⟩ : ApplyState).k + kk = kk := by simp
      rw [hzero] at hrk
      have hipv : it.contentIndex = v.1 ∧ it.partIndex = v.2.1 := by
        have h2 : (it.contentIndex, it.partIndex) = (v.1, v.2.1) := hip
        exact ⟨congrArg Prod.fst h2, congrArg Prod.snd h2⟩
      rw [hipv.1, hipv.2] at hrk
      rw [hi1, hj1] at hpv'
      rw [hrk] at hpv'
      have hveq : v'.2.2 = replacementOf env kk it := (Option.some_inj.1 hpv').symm
      obtain ⟨⟨fr, hfr⟩, -⟩ := mask_items_spec env h it hit
      rw [hveq, replacementOf_eq hfr]
      exact visitClass_maskedPart env kk fr it
    · intro hm
      have hfr : partAt fin.hist v.1 v.2.1 = partAt h v.1 v.2.1 := by
        refine hframe_part v.1 v.2.1 ?_
        intro it hit hcontra
        exact hm (List.mem_map.2 ⟨it, hit, by simp [ipos, vpos, hcontra.1, hcontra.2]⟩)
      rw [hi1, hj1] at hpv'
      rw [hfr, hpv] at hpv'
      have hveq : v'.2.2 = v.2.2 := (Option.some_inj.1 hpv').symm
      obtain ⟨a, b, p⟩ := v
      obtain ⟨a', b', p'⟩ := v'
      simp only at hi1 hj1 hveq
      rw [hi1, hj1, hveq]
  have hmain := scan2_aux env.est (items.map ipos) hrel scanInit scanInit
    (by rw [← scanHistory_eq_foldl]) (visits_vpos_nodup h)
    (by intro it hit; simp [scanInit] at hit) rfl rfl rfl (le_refl _)
  rw [scanHistory_eq_foldl]
  exact hmain

/-! ## Agreement of `maskE` under an always-succeeding writer -/

instance {ε α : Type} [DecidableEq ε] [DecidableEq α] : DecidableEq (Except ε α) := fun a b =>
  match a, b with
  | .error e, .error e' =>
      if h : e = e' then .isTrue (by rw [h]) else .isFalse (by simp [h])
  | .ok x, .ok y =>
      if h : x = y then .isTrue (by rw [h]) else .isFalse (by simp [h])
  | .error _, .ok _ => .isFalse (by simp)
  | .ok _, .error _ => .isFalse (by simp)

/-- The always-succeeding offload writer. -/
def okWrite : String → String → Except String Unit := fun _ _ => .ok ()

theorem applyItemE_ok (env : MaskEnv) (st : ApplyState) (it : PrunableItem) :
    applyItemE okWrite env st it = .ok (applyItem env st it) := by
  simp only [applyItemE, applyItem, okWrite]
  split <;> rfl

theorem foldlM_applyItemE_ok (env : MaskEnv) :
    ∀ (items : List PrunableItem) (st : ApplyState),
      List.foldlM (applyItemE okWrite env) st items =
        .ok (items.foldl (applyItem env) st) := by
  intro items
  induction items with
  | nil => intro st; rfl
  | cons it rest ih =>
      intro st
      rw [List.foldlM_cons, applyItemE_ok]
      show rest.foldlM (applyItemE okWrite env) (applyItem env st it) = _
      rw [ih, List.foldl_cons]

/-- Under a writer that never fails, `maskE` computes exactly `maskFull`. -/
theorem maskE_ok_writer (env : MaskEnv) (h : List Content) :
    maskE okWrite env h = .ok (maskFull env h) := by
  unfold maskE maskFull
  by_cases hl : h.length = 0
  · simp [hl]
  · by_cases hlow : (scanHistory env.est h).total < HYSTERESIS_THRESHOLD
    · simp [hl, hlow]
    · simp only [hl, hlow, if_false]
      rw [foldlM_applyItemE_ok]
      by_cases hs : ((scanHistory env.est h).items.foldl (applyItem env) ⟨h, 0, 0⟩).saved ≤ 0 <;>
        simp [hs]

/-! ## The preview policy, as specified -/

/-- The preview policy in the words of the specification (claim C6): shell
previews get an error marker whenever an `error` field is present. -/
def previewPolicyClaim (toolName : String) (response : Json) (content : String) :
    String :=
  if toolName = SHELL_TOOL_NAME then
    let output := jsOr (jget response "output") (jsOr (jget response "stdout") (.jstr ""))
    let outStr :=
      match output with
      | .jstr s => s
      | v => stringifyC v
    let firstThree := String.intercalate "\n" ((strSplitNewline outStr).take 3)
    let exitMarker :=
      match jsNullish (jget response "exitCode") (jget response "exit_code") with
      | some v => if v = Json.jnum 0 || v = Json.jnull then ""
                  else "\n[Exit Code: " ++ jsDisplay v ++ "]"
      | none => ""
    let errMarker :=
      match jget response "error" with
      | some e => "\n[Error: " ++ jsDisplay e ++ "]"
      | none => ""
    firstThree ++ exitMarker ++ errMarker
  else if content.length > 500 then
    strTake 250 content ++ "\n... [TRUNCATED] ...\n" ++ strTakeRight 250 content
  else content

/-- The amended preview policy: identical to the claim except that the error
marker requires a truthy error value (a present-but-falsy `error` field adds
no marker), matching `if (error)` in the code. -/
def previewPolicyAmended (toolName : String) (response : Json) (content : String) :
    String :=
  if toolName = SHELL_TOOL_NAME then
    let output := jsOr (jget response "output") (jsOr (jget response "stdout") (.jstr ""))
    let outStr :=
      match output with
      | .jstr s => s
      | v => stringifyC v
    let firstThree := String.intercalate "\n" ((strSplitNewline outStr).take 3)
    let exitMarker :=
      match jsNullish (jget response "exitCode") (jget response "exit_code") with
      | some v => if v = Json.jnum 0 || v = Json.jnull then ""
                  else "\n[Exit Code: " ++ jsDisplay v ++ "]"
      | none => ""
    let errMarker :=
      match jget response "error" with
      | some e => if jsTruthy e then "\n[Error: " ++ jsDisplay e ++ "]" else ""
      | none => ""
    firstThree ++ exitMarker ++ errMarker
  else if content.length > 500 then
    strTake 250 content ++ "\n... [TRUNCATED] ...\n" ++ strTakeRight 250 content
  else content

/-! ## Remaining helper lemmas -/

/-- A scan over visits that are all skipped leaves the state untouched. -/
theorem fold_skip_all {est : Part → Nat} :
    ∀ (vs : List Visit) (st : ScanState),
      (∀ v ∈ vs, visitClass v.2.2 = none) →
      vs.foldl (scanVisit est) st = st := by
  intro vs
  induction vs with
  | nil => intro st _; rfl
  | cons v rest ih =>
      intro st hall
      rw [List.foldl_cons, scanVisit_skip' (hall v (by simp))]
      exact ih st (fun w hw => hall w (by simp [hw]))

/-- The token savings of the loop, written with the estimator of each
original part (the claim's phrasing); agrees with `savedSumTok` on items
produced by the scan. -/
def savingsSpec (env : MaskEnv) : Nat → List PrunableItem → Int
  | _, [] => 0
  | k, it :: rest =>
      ((env.est it.originalPart : Int) - (env.est (replacementOf env k it) : Int)) +
        savingsSpec env (k + 1) rest

theorem savedSumTok_eq_spec (env : MaskEnv) :
    ∀ (items : List PrunableItem) (k : Nat),
      (∀ it ∈ items, it.tokens = env.est it.originalPart) →
      savedSumTok env k items = savingsSpec env k items := by
  intro items
  induction items with
  | nil => intro k _; rfl
  | cons it rest ih =>
      intro k hall
      rw [savedSumTok, savingsSpec, hall it (by simp),
        ih (k + 1) (fun w hw => hall w (by simp [hw]))]

theorem scannedPrefix_length (h : List Content) :
    (scannedPrefix h).length = h.length - 1 := by
  rw [scannedPrefix]
  rw [show PROTECT_LATEST_TURN = true from rfl, if_pos rfl, List.length_take]
  exact min_eq_left (Nat.sub_le _ _)

/-! ## Concrete evaluation data

A deterministic estimator that charges a flat 20,000 tokens for any
unmasked observation and 1 token for a masked one, plus small histories
exercising the triggered and untriggered paths. -/

def estW : Part → Nat := fun p =>
  match getObservationContent p with
  | some c => if isAlreadyMasked c then 1 else 20000
  | none => 0

def envW : MaskEnv := ⟨estW, "d", fun k => "s" ++ toString k, "now"⟩

def frPart (n id payload : String) : Part :=
  .functionResponse ⟨some n, some id, some (.jobj [("content", .jstr payload)])⟩

def hTrig : List Content :=
  [⟨"user", [.text "q"]⟩,
   ⟨"user", [frPart "t1" "i1" "a"]⟩,
   ⟨"user", [frPart "t2" "i2" "b"]⟩,
   ⟨"user", [frPart "t3" "i3" "c"]⟩,
   ⟨"user", [frPart "t4" "i4" "d"]⟩,
   ⟨"user", [frPart "t5" "i5" "e"]⟩,
   ⟨"model", [.text "latest"]⟩]

def hLow : List Content :=
  [⟨"user", [frPart "t1" "i1" "a"]⟩, ⟨"model", [.text "m"]⟩]

/-- A writer that fails on the offload path of the first prunable part of
`hTrig` and succeeds everywhere else. -/
def failWrite : String → String → Except String Unit := fun p _ =>
  if p = "d/observations/t3_i3_s0.txt" then .error "EIO" else .ok ()

/-- Shell response whose `error` field is present but falsy. -/
def rShell : Json := .jobj [("output", .jstr "hello"), ("error", .jstr "")]

def estC6 : Part → Nat := fun p =>
  match getObservationContent p with
  | some c => if isAlreadyMasked c then 1 else 60000
  | none => 0

def envC6 : MaskEnv := ⟨estC6, "d", fun k => "s" ++ toString k, "now"⟩

def hC6 : List Content :=
  [⟨"user", [.functionResponse ⟨some SHELL_TOOL_NAME, some "c1", some rShell⟩]⟩,
   ⟨"model", [.text "ok"]⟩]

/-! ## Claims -/

/-- C1.  For every history and deterministic token estimator, `mask` masks
exactly the prunable set: the backward scan (`scanHistory`, turns newest to
oldest skipping the newest turn, parts newest to oldest) accumulates a
running protected total over non-masked function-response parts, parts
within the 50,000-token protection window stay untouched, and the part that
makes the total exceed it plus every older such part is prunable; when the
prunable total is under 30,000 tokens the input history is returned
unchanged with `maskedCount = 0` and `tokensSaved = 0`, and otherwise every
prunable part — and only those — is replaced by a masked-guidance block. -/
theorem mask_prunable_set_exact (env : MaskEnv) (h : List Content) :
    ((scanHistory env.est h).total < HYSTERESIS_THRESHOLD →
      mask env h = ⟨h, 0, 0⟩) ∧
    (¬ (scanHistory env.est h).total < HYSTERESIS_THRESHOLD →
      (mask env h).maskedCount = (scanHistory env.est h).items.length ∧
      (∀ (k : Nat) (hk : k < (scanHistory env.est h).items.length),
        ∃ fr, ((scanHistory env.est h).items[k]).originalPart = Part.functionResponse fr ∧
          partAt h ((scanHistory env.est h).items[k]).contentIndex
              ((scanHistory env.est h).items[k]).partIndex
            = some (Part.functionResponse fr) ∧
          partAt (mask env h).newHistory ((scanHistory env.est h).items[k]).contentIndex
              ((scanHistory env.est h).items[k]).partIndex
            = some (maskedPart env k fr ((scanHistory env.est h).items[k]))) ∧
      (∀ i j : Nat, (∀ it ∈ (scanHistory env.est h).items,
          ¬(it.contentIndex = i ∧ it.partIndex = j)) →
        partAt (mask env h).newHistory i j = partAt h i j)) := by
  constructor
  · intro hlow
    rw [mask, mask_not_triggered hlow]
  · intro htrig
    obtain ⟨ha, hk, hs, hframe_turn, hframe_part, hrepl, hshape⟩ :=
      apply_fold env (scanHistory env.est h).items ⟨h, 0, 0⟩
        (mask_items_spec env h) (scan_items_ipos_nodup env.est h)
    have hmask : mask env h =
        ⟨((scanHistory env.est h).items.foldl (applyItem env) ⟨h, 0, 0⟩).hist,
          (scanHistory env.est h).items.length,
          ((scanHistory env.est h).items.foldl (applyItem env) ⟨h, 0, 0⟩).saved⟩ := by
      rw [mask, maskFull_triggered htrig]
    refine ⟨by rw [hmask], ?_, ?_⟩
    · intro k hkk
      obtain ⟨⟨fr, hfr⟩, hpart⟩ :=
        mask_items_spec env h ((scanHistory env.est h).items[k]) (List.getElem_mem hkk)
      refine ⟨fr, hfr, by rw [← hfr]; exact hpart, ?_⟩
      have := hrepl k hkk
      rw [hmask]
      show partAt _ _ _ = _
      rw [this]
      have hz : ((⟨h, 0, 0⟩ : ApplyState)).k + k = k := by simp
      rw [hz, replacementOf_eq hfr]
    · intro i j hij
      rw [hmask]
      exact hframe_part i j hij

/-- C1 witness: on a concrete history under the hysteresis threshold `mask`
is the identity with zero counts, and on a concrete triggered history it
masks exactly the three prunable parts while leaving an untouched position
unchanged. -/
theorem mask_prunable_set_exact_witness :
    mask envW hLow = ⟨hLow, 0, 0⟩ ∧
    (mask envW hTrig).maskedCount = (scanHistory envW.est hTrig).items.length ∧
    partAt (mask envW hTrig).newHistory 6 0 = partAt hTrig 6 0 := by
  refine ⟨(mask_prunable_set_exact envW hLow).1 (by decide), ?_, ?_⟩
  · exact ((mask_prunable_set_exact envW hTrig).2 (by decide)).1
  · exact ((mask_prunable_set_exact envW hTrig).2 (by decide)).2.2 6 0 (by decide)

/-- C3.  When latest-turn protection is enabled (it is a compile-time
constant `true`), the newest turn of the history returned by `mask` is
identical to the newest turn of the input history, whatever its size. -/
theorem mask_protects_latest_turn (env : MaskEnv) (h : List Content) :
    (mask env h).newHistory.getLast? = h.getLast? ∧
    (mask env h).newHistory.length = h.length := by
  by_cases htrig : (scanHistory env.est h).total < HYSTERESIS_THRESHOLD
  · rw [mask, mask_not_triggered htrig]
    exact ⟨rfl, rfl⟩
  · obtain ⟨ha, -, -, hframe_turn, -, -, -⟩ :=
      apply_fold env (scanHistory env.est h).items ⟨h, 0, 0⟩
        (mask_items_spec env h) (scan_items_ipos_nodup env.est h)
    have hmask : (mask env h).newHistory =
        ((scanHistory env.est h).items.foldl (applyItem env) ⟨h, 0, 0⟩).hist := by
      rw [mask, maskFull_triggered htrig]
    constructor
    · rw [hmask, List.getLast?_eq_getElem?, List.getLast?_eq_getElem?, ha]
      show ((scanHistory env.est h).items.foldl (applyItem env)
        (⟨h, 0, 0⟩ : ApplyState)).hist[h.length - 1]? = _
      refine hframe_turn (h.length - 1) ?_
      intro it hit
      have hci := (scan_items_facts it hit).1
      rw [scannedPrefix_length] at hci
      omega
    · rw [hmask]
      exact ha

/-- C4.  `mask` is idempotent: applying it to the `newHistory` of a first
application returns that history unchanged with `maskedCount = 0` and
`tokensSaved = 0`, because parts whose serialized response carries the
masked-guidance marker are skipped and the surviving protected parts still
fit inside the protection window. -/
theorem mask_idempotent (env : MaskEnv) (h : List Content) :
    mask env ((mask env h).newHistory) = ⟨(mask env h).newHistory, 0, 0⟩ := by
  by_cases htrig : (scanHistory env.est h).total < HYSTERESIS_THRESHOLD
  · have h1 : mask env h = ⟨h, 0, 0⟩ := by rw [mask, mask_not_triggered htrig]
    rw [h1]
    show mask env h = ⟨h, 0, 0⟩
    exact h1
  · have hmask : (mask env h).newHistory =
        ((scanHistory env.est h).items.foldl (applyItem env) ⟨h, 0, 0⟩).hist := by
      rw [mask, maskFull_triggered htrig]
    obtain ⟨-, hzero⟩ := scan_of_masked_empty env h
    rw [hmask, mask, mask_not_triggered (by rw [hzero]; norm_num [HYSTERESIS_THRESHOLD])]

/-- C5.  On every history on which a masking pass triggers, `tokensSaved`
equals the sum over the masked parts of (estimated tokens of the original
part minus estimated tokens of its replacement block), and the telemetry
event `{tokens_before, tokens_after, masked_count, total_prunable_tokens}`
is emitted exactly when `tokensSaved` is strictly positive — hence is
non-negative whenever the event fires. -/
theorem mask_savings_and_telemetry (env : MaskEnv) (h : List Content)
    (htrig : ¬ (scanHistory env.est h).total < HYSTERESIS_THRESHOLD) :
    (mask env h).tokensSaved = savingsSpec env 0 (scanHistory env.est h).items ∧
    (¬ (maskFull env h).telemetry = none ↔ 0 < (mask env h).tokensSaved) ∧
    (∀ ev, (maskFull env h).telemetry = some ev →
      0 ≤ (mask env h).tokensSaved ∧
      ev = ⟨(scanHistory env.est h).total,
            ((scanHistory env.est h).total : Int) - (mask env h).tokensSaved,
            (scanHistory env.est h).items.length,
            (scanHistory env.est h).total⟩) := by
  obtain ⟨-, -, hs, -, -, -, -⟩ :=
    apply_fold env (scanHistory env.est h).items ⟨h, 0, 0⟩
      (mask_items_spec env h) (scan_items_ipos_nodup env.est h)
  have hsaved : (mask env h).tokensSaved =
      ((scanHistory env.est h).items.foldl (applyItem env) ⟨h, 0, 0⟩).saved := by
    rw [mask, maskFull_triggered htrig]
  have htele : (maskFull env h).telemetry =
      (if ((scanHistory env.est h).items.foldl (applyItem env) ⟨h, 0, 0⟩).saved ≤ 0 then none
       else some ⟨(scanHistory env.est h).total,
         ((scanHistory env.est h).total : Int) -
           ((scanHistory env.est h).items.foldl (applyItem env) ⟨h, 0, 0⟩).saved,
         (scanHistory env.est h).items.length, (scanHistory env.est h).total⟩) := by
    rw [maskFull_triggered htrig]
  refine ⟨?_, ?_, ?_⟩
  · rw [hsaved, hs]
    have : ((⟨h, 0, 0⟩ : ApplyState)).saved = 0 := rfl
    rw [this, zero_add]
    show savedSumTok env 0 _ = _
    refine savedSumTok_eq_spec env _ 0 ?_
    intro it hit
    exact (scan_items_facts it hit).2.2.2
  · rw [htele, hsaved]
    by_cases hcond : ((scanHistory env.est h).items.foldl (applyItem env) ⟨h, 0, 0⟩).saved ≤ 0
    · rw [if_pos hcond]
      simp
      omega
    · rw [if_neg hcond]
      simp
      omega
  · intro ev hev
    rw [htele] at hev
    by_cases hcond : ((scanHistory env.est h).items.foldl (applyItem env) ⟨h, 0, 0⟩).saved ≤ 0
    · rw [if_pos hcond] at hev
      exact absurd hev (by simp)
    · rw [if_neg hcond] at hev
      have hev' := Option.some_inj.1 hev
      rw [hsaved]
      exact ⟨by omega, hev'.symm⟩

/-- C5 witness: on the concrete triggered history the savings equal the
spec sum, the telemetry event fires, and it carries the expected fields. -/
theorem mask_savings_and_telemetry_witness :
    (mask envW hTrig).tokensSaved = savingsSpec envW 0 (scanHistory envW.est hTrig).items ∧
    ¬ (maskFull envW hTrig).telemetry = none := by
  have hth := mask_savings_and_telemetry envW hTrig (by decide)
  exact ⟨hth.1, hth.2.1.2 (by decide)⟩

/-- C7.  `mask` returns a fresh history value of the same length; every
turn containing no masked part is returned identically; and any position
whose part differs from the input holds a masked function-response part
whose `name` and `id` are preserved with only the response payload replaced
by the guidance block. -/
theorem mask_frame_preservation (env : MaskEnv) (h : List Content) :
    (mask env h).newHistory.length = h.length ∧
    (∀ i : Nat, (∀ it ∈ (scanHistory env.est h).items, it.contentIndex ≠ i) →
      ((mask env h).newHistory)[i]? = h[i]?) ∧
    (∀ i j : Nat, partAt (mask env h).newHistory i j ≠ partAt h i j →
      (∃ it ∈ (scanHistory env.est h).items, it.contentIndex = i ∧ it.partIndex = j) ∧
      ∃ fr s, partAt h i j = some (.functionResponse fr) ∧
        partAt (mask env h).newHistory i j =
          some (.functionResponse ⟨fr.name, fr.id, some (.jobj [("output", .jstr s)])⟩)) := by
  by_cases htrig : (scanHistory env.est h).total < HYSTERESIS_THRESHOLD
  · have h1 : mask env h = ⟨h, 0, 0⟩ := by rw [mask, mask_not_triggered htrig]
    rw [h1]
    exact ⟨rfl, fun i _ => rfl, fun i j hne => absurd rfl hne⟩
  · obtain ⟨ha, -, -, hframe_turn, hframe_part, hrepl, -⟩ :=
      apply_fold env (scanHistory env.est h).items ⟨h, 0, 0⟩
        (mask_items_spec env h) (scan_items_ipos_nodup env.est h)
    have hmask : (mask env h).newHistory =
        ((scanHistory env.est h).items.foldl (applyItem env) ⟨h, 0, 0⟩).hist := by
      rw [mask, maskFull_triggered htrig]
    rw [hmask]
    refine ⟨ha, hframe_turn, ?_⟩
    intro i j hne
    have hex : ∃ it ∈ (scanHistory env.est h).items,
        it.contentIndex = i ∧ it.partIndex = j := by
      by_contra hall
      push_neg at hall
      exact hne (hframe_part i j
        (fun it hit hcontra => hall it hit hcontra.1 hcontra.2))
    refine ⟨hex, ?_⟩
    rcases hex with ⟨it, hit, hci, hpi⟩
    rcases List.mem_iff_getElem.1 hit with ⟨k, hkk, hkeq⟩
    obtain ⟨⟨fr, hfr⟩, hpart⟩ := mask_items_spec env h it hit
    have hr := hrepl k hkk
    rw [hkeq] at hr
    have hz : ((⟨h, 0, 0⟩ : ApplyState)).k + k = k := by simp
    rw [hz, replacementOf_eq hfr, hci, hpi] at hr
    refine ⟨fr, ?_⟩
    have hsplit : ∃ s : String, maskedPart env k fr it =
        .functionResponse ⟨fr.name, fr.id, some (.jobj [("output", .jstr s)])⟩ :=
      ⟨_, rfl⟩
    rcases hsplit with ⟨s, hseq⟩
    refine ⟨s, ?_, ?_⟩
    · rw [hci, hpi] at hpart
      rw [hpart, hfr]
    · rw [hr, hseq]

/-- C7 witness: concrete instances of the frame conditions on the
triggered history (untouched turn 0 and the protected newest turn are
preserved verbatim). -/
theorem mask_frame_preservation_witness :
    (mask envW hTrig).newHistory.length = hTrig.length ∧
    ((mask envW hTrig).newHistory)[0]? = hTrig[0]? ∧
    ((mask envW hTrig).newHistory)[6]? = hTrig[6]? := by
  have hth := mask_frame_preservation envW hTrig
  exact ⟨hth.1, hth.2.1 0 (by decide), hth.2.1 6 (by decide)⟩

/-- C10.  A function-response part whose response payload is absent is
invisible to the scan: it contributes nothing to the protected or prunable
totals, it is never masked, and a history whose function-response parts all
lack payloads is returned unchanged with zero counts. -/
theorem mask_skips_absent_response :
    (∀ (est : Part → Nat) (st : ScanState) (i j : Nat) (fr : FunctionResponse),
      fr.response = none → scanVisit est st (i, j, .functionResponse fr) = st) ∧
    (∀ (env : MaskEnv) (h : List Content) (i j : Nat) (fr : FunctionResponse),
      partAt h i j = some (.functionResponse fr) → fr.response = none →
      partAt (mask env h).newHistory i j = partAt h i j) ∧
    (∀ (env : MaskEnv) (h : List Content),
      (∀ (i j : Nat) (fr : FunctionResponse),
        partAt h i j = some (.functionResponse fr) → fr.response = none) →
      mask env h = ⟨h, 0, 0⟩) := by
  have hclass : ∀ (fr : FunctionResponse), fr.response = none →
      visitClass (.functionResponse fr) = none := by
    intro fr hresp
    simp [visitClass, getObservationContent, hresp]
  refine ⟨?_, ?_, ?_⟩
  · intro est st i j fr hresp
    exact scanVisit_skip (hclass fr hresp)
  · intro env h i j fr hpart hresp
    by_cases htrig : (scanHistory env.est h).total < HYSTERESIS_THRESHOLD
    · rw [mask, mask_not_triggered htrig]
    · obtain ⟨-, -, -, -, hframe_part, -, -⟩ :=
        apply_fold env (scanHistory env.est h).items ⟨h, 0, 0⟩
          (mask_items_spec env h) (scan_items_ipos_nodup env.est h)
      have hmask : (mask env h).newHistory =
          ((scanHistory env.est h).items.foldl (applyItem env) ⟨h, 0, 0⟩).hist := by
        rw [mask, maskFull_triggered htrig]
      rw [hmask]
      refine hframe_part i j ?_
      intro it hit hcontra
      obtain ⟨-, hp, hcl, -⟩ := scan_items_facts it hit
      rw [hcontra.1, hcontra.2, hpart] at hp
      have hop : it.originalPart = .functionResponse fr := (Option.some_inj.1 hp).symm
      rw [hop, hclass fr hresp] at hcl
      exact absurd hcl (by simp)
  · intro env h hall
    have hskip : ∀ v ∈ visits h, visitClass v.2.2 = none := by
      intro v hv
      have hp := (visits_mem hv).2
      cases hcase : v.2.2 with
      | functionResponse fr =>
          rw [hcase] at hp
          exact hclass fr (hall v.1 v.2.1 fr hp)
      | text s => simp [visitClass]
      | inlineData d => simp [visitClass]
    have hzero : (scanHistory env.est h).total = 0 := by
      rw [scanHistory_eq_foldl, fold_skip_all (visits h) scanInit hskip]
      rfl
    rw [mask, mask_not_triggered (by rw [hzero]; norm_num [HYSTERESIS_THRESHOLD])]

/-- C10 witness: a history whose only function-response part lacks a
payload — even with a huge estimator value — is returned unchanged, and a
concrete absent-payload visit leaves a mid-scan state untouched. -/
theorem mask_skips_absent_response_witness :
    mask envW [⟨"user", [.functionResponse ⟨some "t", some "i", none⟩]⟩,
               ⟨"model", [.text "m"]⟩]
      = ⟨[⟨"user", [.functionResponse ⟨some "t", some "i", none⟩]⟩,
          ⟨"model", [.text "m"]⟩], 0, 0⟩ ∧
    scanVisit estW ⟨40000, false, 0, []⟩ (0, 0, .functionResponse ⟨some "t", some "i", none⟩)
      = ⟨40000, false, 0, []⟩ := by
  constructor
  · refine mask_skips_absent_response.2.2 envW _ ?_
    intro i j fr h
    rcases i with - | i
    · rcases j with - | j
      · have h2 : Part.functionResponse ⟨some "t", some "i", none⟩ =
            Part.functionResponse fr := by
          simpa [partAt] using h
        injection h2 with h3
        rw [← h3]
      · simp [partAt] at h
    · rcases i with - | i
      · rcases j with - | j <;> simp [partAt] at h
      · simp [partAt] at h
  · exact mask_skips_absent_response.1 estW ⟨40000, false, 0, []⟩ 0 0 ⟨some "t", some "i", none⟩ rfl

set_option maxRecDepth 40000 in
/-- C2.  The code contradicts the spec here: `mask` awaits
`fsPromises.writeFile` with no surrounding try/catch, so a failing offload
write for one prunable part aborts the whole pass instead of falling back to
an in-memory preview and masking the remaining parts.  Concretely, on a
history with three prunable parts and a writer that fails only on the first
part's offload path, `maskE` propagates the error and no part is masked,
while the spec demands that the other two parts still be processed. -/
theorem maskE_write_failure_aborts :
    maskE failWrite envW hTrig = .error "EIO" ∧
    (scanHistory envW.est hTrig).items.length = 3 ∧
    (mask envW hTrig).maskedCount = 3 := by
  decide

set_option maxRecDepth 40000 in
/-- C6 counterexample.  A prunable shell observation whose `error` field is
present but empty: the claim's preview policy appends an error marker, but
the masked-guidance block the code produces contains none. -/
theorem preview_error_marker_counterexample :
    ((partAt (mask envC6 hC6).newHistory 0 0).bind getObservationContent).map
        (fun s => strIncludes s "[Error:") = some false ∧
    strIncludes (previewPolicyClaim SHELL_TOOL_NAME rShell (stringifyI 0 rShell))
      "[Error:" = true ∧
    (scanHistory estC6 hC6).items.length = 1 ∧
    (mask envC6 hC6).maskedCount = 1 := by
  decide

/-- C6 (amended).  The preview placed in a masked-guidance block follows the
amended policy: for the shell tool, the first three lines of the primary
output field, plus an exit-code marker when the exit code is defined,
non-null and non-zero, plus an error marker when the error field holds a
truthy value; for any other tool, a head-250/tail-250 splice around a
truncation marker when the serialized content exceeds 500 characters and
the content verbatim otherwise. -/
theorem computePreview_matches_amended_policy :
    ∀ (toolName : String) (response : Json) (content : String),
      computePreview toolName response content =
        previewPolicyAmended toolName response content := by
  intro tn r c
  unfold computePreview previewPolicyAmended formatShellPreview
  by_cases hsh : tn = SHELL_TOOL_NAME
  · rw [if_pos hsh, if_pos hsh]
    rcases hexit : jsNullish (jget r "exitCode") (jget r "exit_code") with - | v <;>
      rcases herr : jget r "error" with - | e <;>
        simp only [hexit, herr] <;> (try split_ifs) <;>
          simp only [String.append_empty, String.empty_append,
            String.append_assoc]
  · rw [if_neg hsh, if_neg hsh]

/-- C8.  Modelled from the spec: when the cumulative description size of
discovered-origin entries exceeds 30,000 characters,
`getFunctionDeclarations` exposes exactly the already-active entries plus
every native-origin entry plus the synthetic `search_tools` declaration
(whose parameters are a single required string `query`); discovered entries
that are not active are omitted and native entries are never hidden.  At or
under the threshold every entry's declaration is returned and no
`search_tools` declaration appears. -/
theorem getFunctionDeclarations_gating (ts : List ToolEntry)
    (hnames : (ts.map ToolEntry.name).Nodup)
    (hsearch : "search_tools" ∉ ts.map ToolEntry.name) :
    (cumulativeDiscoveredSize ts > TOOL_DESCRIPTION_THRESHOLD →
      getFunctionDeclarations ts =
        (ts.filter (fun e => e.origin = .native || e.active)).map declOf ++
          [searchToolsDecl] ∧
      searchToolsDecl ∈ getFunctionDeclarations ts ∧
      searchToolsDecl.parameters = ⟨[("query", "string")], ["query"]⟩ ∧
      (∀ e ∈ ts, e.origin = .native → declOf e ∈ getFunctionDeclarations ts) ∧
      (∀ e ∈ ts, e.origin = .discovered → e.active = false →
        declOf e ∉ getFunctionDeclarations ts)) ∧
    (¬ cumulativeDiscoveredSize ts > TOOL_DESCRIPTION_THRESHOLD →
      getFunctionDeclarations ts = ts.map declOf ∧
      searchToolsDecl ∉ getFunctionDeclarations ts) := by
  constructor
  · intro hover
    have hdef : getFunctionDeclarations ts =
        (ts.filter (fun e => e.origin = .native || e.active)).map declOf ++
          [searchToolsDecl] := by
      rw [getFunctionDeclarations, if_pos hover]
    refine ⟨hdef, by rw [hdef]; simp, rfl, ?_, ?_⟩
    · intro e he horigin
      rw [hdef]
      refine List.mem_append_left _ ?_
      exact List.mem_map_of_mem declOf (List.mem_filter.2 ⟨he, by simp [horigin]⟩)
    · intro e he horigin hactive hmem
      rw [hdef] at hmem
      rcases List.mem_append.1 hmem with hmem | hmem
      · rcases List.mem_map.1 hmem with ⟨e', he', heq⟩
        have he'ts := (List.mem_filter.1 he').1
        have hpred := (List.mem_filter.1 he').2
        have hname : e'.name = e.name := congrArg FunctionDecl.name heq
        have : e' = e :=
          List.inj_on_of_nodup_map hnames he'ts he hname
        subst this
        rw [horigin, hactive] at hpred
        simp at hpred
      · rw [List.mem_singleton] at hmem
        have : e.name = "search_tools" := congrArg FunctionDecl.name hmem
        exact hsearch (this ▸ List.mem_map_of_mem ToolEntry.name he)
  · intro hunder
    have hdef : getFunctionDeclarations ts = ts.map declOf := by
      rw [getFunctionDeclarations, if_neg hunder]
    refine ⟨hdef, ?_⟩
    rw [hdef]
    intro hmem
    rcases List.mem_map.1 hmem with ⟨e, he, heq⟩
    have : e.name = "search_tools" := congrArg FunctionDecl.name heq
    exact hsearch (this ▸ List.mem_map_of_mem ToolEntry.name he)

/-- A discovered tool whose description alone exceeds the gating
threshold. -/
def descBig : String := ⟨List.replicate 30001 'a'⟩

def bigToolW : ToolEntry := ⟨"big_tool", descBig, .discovered, false⟩

def smallToolW : ToolEntry := ⟨"small_tool", "small", .discovered, false⟩

def nativeToolW : ToolEntry := ⟨"native_tool", "native", .native, false⟩

def tsW : List ToolEntry := [bigToolW, smallToolW, nativeToolW]

/-- C8 witness: on a concrete registry over the threshold, the search
declaration appears, the native tool stays exposed, and both inactive
discovered tools are hidden. -/
theorem getFunctionDeclarations_gating_witness :
    searchToolsDecl ∈ getFunctionDeclarations tsW ∧
    declOf nativeToolW ∈ getFunctionDeclarations tsW ∧
    declOf bigToolW ∉ getFunctionDeclarations tsW ∧
    declOf smallToolW ∉ getFunctionDeclarations tsW := by
  have hsize : cumulativeDiscoveredSize tsW = 30006 := by
    show (List.filter _ tsW).foldl (fun a e => a + e.description.length) 0 = 30006
    have h1 : List.filter (fun e => decide (e.origin = ToolOrigin.discovered)) tsW
        = [bigToolW, smallToolW] := by rfl
    rw [h1]
    rw [List.foldl_cons, List.foldl_cons, List.foldl_nil]
    have hb : bigToolW.description = descBig := rfl
    have hs2 : smallToolW.description = "small" := rfl
    rw [hb, hs2]
    have h2 : descBig.length = 30001 := by
      show (List.replicate 30001 'a').length = 30001
      exact List.length_replicate _ _
    rw [h2]
    rfl
  have hth := getFunctionDeclarations_gating tsW (by decide) (by decide)
  have hover : cumulativeDiscoveredSize tsW > TOOL_DESCRIPTION_THRESHOLD := by
    rw [hsize]; norm_num [TOOL_DESCRIPTION_THRESHOLD]
  obtain ⟨-, hmem, -, hnat, hhide⟩ := hth.1 hover
  exact ⟨hmem, hnat nativeToolW (by simp [tsW]) rfl,
    hhide bigToolW (by simp [tsW]) rfl rfl,
    hhide smallToolW (by simp [tsW]) rfl rfl⟩

/-- C9.  Modelled from the spec: when the summarization model call fails
(network error, model error or cancellation, all modelled as an `Except`
error), a triggered compression returns the original history unchanged —
with none of the per-response truncations applied — and reports failure,
never a partially applied summary. -/
theorem compress_fail_soft (modelCall : List Content → Except String String)
    (truncatePart : Part → Part) (keepTail : Nat → Nat) (force : Bool)
    (curTokens limitTokens ratioNum ratioDen : Nat) (history : List Content)
    (e : String)
    (htrig : ¬ (force = false ∧ curTokens * ratioDen ≤ ratioNum * limitTokens))
    (hfail : modelCall (earlyRegion truncatePart keepTail history) = .error e) :
    compress modelCall truncatePart keepTail force curTokens limitTokens
      ratioNum ratioDen history = ⟨history, .failed⟩ := by
  unfold compress
  rw [if_neg htrig]
  simp only [hfail]

/-- C9 witness: a concrete forced compression whose model call fails with a
network error returns the original history and reports failure. -/
theorem compress_fail_soft_witness :
    compress (fun _ => .error "network") id (fun n => 3 * n / 10) true
      800 1000 1 2 hTrig = ⟨hTrig, .failed⟩ := by
  exact compress_fail_soft (fun _ => .error "network") id (fun n => 3 * n / 10)
    true 800 1000 1 2 hTrig "network" (by simp) rfl

end GeminiCli
